import Mathlib

/-!
Verification development for the blast-design model
(`algoritmo de presupuestos/budget_blast2/model.py`).

The Python module is shallowly embedded here: machine floats are modelled
as real numbers, shapely geometric primitives are modelled by their exact
mathematical counterparts (a polygon is its exterior ring of vertices, a
circle is an exact circle rather than shapely's polygonal `buffer`
approximation), dict-shaped parameter records become structures with
`Option` fields so that each call site can apply its own `.get` default,
and Python functions that may raise are embedded with `Option` results.
`shapely.buffer(0)` repair of invalid polygons is not reproducible
mathematically and is abstracted as an oracle argument `buffer0`.
-/

open Real

open scoped Classical

noncomputable section

/-- A 2-D point, mirroring the (x, y) coordinate pairs of the source. -/
abbrev Pt : Type := ℝ × ℝ

/-- Coordinatewise subtraction of points / vectors. -/
def psub (a b : Pt) : Pt := (a.1 - b.1, a.2 - b.2)

/-- Coordinatewise addition of points / vectors. -/
def padd (a b : Pt) : Pt := (a.1 + b.1, a.2 + b.2)

/-- Scalar multiple of a vector. -/
def psmul (t : ℝ) (a : Pt) : Pt := (t * a.1, t * a.2)

/-- Squared Euclidean norm of a vector. -/
def sqLen (v : Pt) : ℝ := v.1 ^ 2 + v.2 ^ 2

/-- Euclidean distance between two points: `shapely .distance` and the
`np.linalg.norm` row norms of the source. -/
def elen (a b : Pt) : ℝ := Real.sqrt (sqLen (psub b a))

/-- Cross product (determinant) of two plane vectors. -/
def cross2 (u v : Pt) : ℝ := u.1 * v.2 - u.2 * v.1

/-- Dot product of two plane vectors. -/
def dot2 (u v : Pt) : ℝ := u.1 * v.1 + u.2 * v.2

/-- Two-argument arctangent, modelling `np.arctan2 y x`; realised as the
argument of the complex number `x + y*I`, which has the same value
(range `(-pi, pi]`, and `0` at the origin). -/
def atan2 (y x : ℝ) : ℝ := Complex.arg (Complex.mk x y)

/-- Radians to degrees, modelling `np.degrees`. -/
def degOfRad (r : ℝ) : ℝ := r * 180 / π

/-- Degrees to radians, modelling `np.radians`. -/
def radOfDeg (d : ℝ) : ℝ := d * π / 180

/-- A line segment (shapely two-point `LineString`): endpoints. -/
abbrev Seg : Type := Pt × Pt

/-- Direction vector of a two-point line. -/
def lineVec (l : Seg) : Pt := psub l.2 l.1

/-- Model of `LineString([a, b]).interpolate(d)` (GEOS `LengthIndexedLine`):
a negative distance is measured from the end of the line, and the index is
clamped to the line; on a zero-length line the start point is returned. -/
def interpolate (a b : Pt) (d : ℝ) : Pt :=
  let L := elen a b
  if L = 0 then a
  else
    let d1 := if d < 0 then L + d else d
    let d2 := max 0 (min d1 L)
    padd a (psmul (d2 / L) (psub b a))

/-- Model of `model.py _angle_between`: signed angle in degrees between the
direction vectors of two lines, via unit-vector normalisation, a clip of the
dot product to `[-1, 1]`, and `degrees(arctan2(det, dot))`; `0` when either
direction vector is null. -/
def _angle_between (la lb : Seg) : ℝ :=
  let va := lineVec la
  let vb := lineVec lb
  let na := Real.sqrt (sqLen va)
  let nb := Real.sqrt (sqLen vb)
  if na = 0 ∨ nb = 0 then 0
  else
    let ua := psmul na⁻¹ va
    let ub := psmul nb⁻¹ vb
    let dt := max (-1) (min 1 (dot2 ua ub))
    let det := cross2 ua ub
    degOfRad (atan2 det dt)

/-- Python truthiness-based `or` on an optional float: `x or default` in
Python falls back to the default when `x` is `None` or `0.0`. -/
def pyOr (x : Option ℝ) (d : ℝ) : ℝ :=
  match x with
  | none => d
  | some v => if v = 0 then d else v

-- ======================================================================
-- Generator parameter record and designs
-- ======================================================================

/-- The dict of generation parameters threaded through the fan generators
(`holes_number`, `spacing`, `min_angle`, `max_angle`, `max_length`,
`min_length`).  `spacing` and `burden` are optional because the `angular`
branch of the optimizer builds a params dict without them and later readers
apply their own `.get` defaults (`spacing` defaults to `0.0` in
`generate_direct`/`generate_offset`, to `1.0` in `generate_aeci`, and to
`2.0` in `RingEvaluator.evaluate_ring`; `burden` defaults to the spacing). -/
structure FanParams where
  holes_number : ℤ := 0
  spacing : Option ℝ := none
  burden : Option ℝ := none
  min_angle : ℝ := 0
  max_angle : ℝ := 0
  max_length : ℝ := 0
  min_length : ℝ := 0.1

/-- A generated fan design: the `{"geometry": [collars, toes], "params": p}`
dict returned by each generator. -/
structure FanDesign where
  collars : List Pt
  toes : List Pt
  params : FanParams

-- ======================================================================
-- ChargeDesigner (model.py lines 479-518)
-- ======================================================================

/-- Loop body of `ChargeDesigner.get_charges`: for each (collar, toe) pair
whose length strictly exceeds the stemming, emit a charge from the point
`stemming` metres along the hole to the hole's toe. -/
def chargesLoop (stemming : ℝ) : List (Pt × Pt) → List Pt × List Pt
  | [] => ([], [])
  | (c, t) :: rest =>
    let acc := chargesLoop stemming rest
    if elen c t > stemming then (interpolate c t stemming :: acc.1, t :: acc.2)
    else acc

/-- Model of `ChargeDesigner.get_charges`: the guard returns an empty
geometry when the holes' collar list is empty (`not geo[0]`), otherwise the
zipped collar/toe pairs are scanned in order. -/
def get_charges (holes : FanDesign) (stemming : ℝ) : List Pt × List Pt :=
  if holes.collars = [] then ([], [])
  else chargesLoop stemming (holes.collars.zip holes.toes)

-- ======================================================================
-- Unit-cost dictionary and DesignEvaluator (model.py lines 860-952)
-- ======================================================================

/-- The `unit_costs` dict.  All entries are optional; each consumer applies
its own `.get` default (they differ between `ChargeEvaluator`,
`RingEvaluator` and `DesignEvaluator.calculate_total_cost`). -/
structure UnitCosts where
  perforacion_por_metro : Option ℝ := none
  detonador_por_unidad : Option ℝ := none
  explosivo_por_kg : Option ℝ := none
  densidad_explosivo_gcc : Option ℝ := none
  diametro_carga_mm : Option ℝ := none
  energia_explosivo_MJkg : Option ℝ := none

/-- The design passed to the evaluators: `{"holes": ..., "charges": ...}`. -/
structure Design where
  holes : FanDesign
  charges : List Pt × List Pt

/-- Linear charge density `q_l = 7.854e-4 * rho * D**2` in kg/m.  The
source repeats this exact expression in `ChargeEvaluator.evaluate_energy`,
`RingEvaluator.evaluate_ring` and
`DesignEvaluator.calculate_total_cost`. -/
def ql_of (rho dmm : ℝ) : ℝ := 7.854e-4 * rho * dmm ^ 2

/-- Sum of per-row Euclidean lengths of a `[starts, ends]` geometry pair,
with the guard of `DesignEvaluator.total_drilled_length` /
`total_charge_length`: empty or length-mismatched geometry yields `0`. -/
def geoTotalLen (geo : List Pt × List Pt) : ℝ :=
  if geo.1 = [] ∨ geo.1.length ≠ geo.2.length then 0
  else ((geo.1.zip geo.2).map fun ab => elen ab.1 ab.2).sum

/-- Model of `DesignEvaluator.total_drilled_length`. -/
def total_drilled_length (holes : FanDesign) : ℝ :=
  geoTotalLen (holes.collars, holes.toes)

/-- Model of `DesignEvaluator.total_charge_length`. -/
def total_charge_length (charges : List Pt × List Pt) : ℝ :=
  geoTotalLen charges

/-- Model of `DesignEvaluator.calculate_total_cost`:
drilling + detonators + explosive. -/
def calculate_total_cost (design : Design) (u : UnitCosts) : ℝ :=
  let Cp := u.perforacion_por_metro.getD 0
  let Cd := u.detonador_por_unidad.getD 0
  let Ce := u.explosivo_por_kg.getD 0
  let rho := u.densidad_explosivo_gcc.getD 0
  let dmm := u.diametro_carga_mm.getD 0
  let L := total_drilled_length design.holes
  let C_perf := L * Cp
  let n_tiros := design.holes.collars.length
  let C_det := (n_tiros : ℝ) * Cd
  let Lc := total_charge_length design.charges
  let ql := ql_of rho dmm
  let M_total := Lc * ql
  let C_exp := M_total * Ce
  C_perf + C_det + C_exp

-- ======================================================================
-- ChargeEvaluator (model.py lines 523-598)
-- ======================================================================

/-- Result record of `ChargeEvaluator.evaluate_energy`. -/
structure EnergyData where
  M_total : ℝ
  E_total : ℝ
  E_especifica : ℝ
  L_prom : ℝ
  V_volado : ℝ

/-- Model of `ChargeEvaluator.evaluate_energy`.  `energia_unidad or 4.2`
and `burden or spacing` use Python truthiness (`pyOr`), and the specific
energy is guarded by `V > 0`. -/
def evaluate_energy (charges : List Pt × List Pt) (u : UnitCosts)
    (spacing : ℝ) (burden : Option ℝ) (energia_unidad : Option ℝ) :
    EnergyData :=
  let rho := u.densidad_explosivo_gcc.getD 1.1
  let dmm := u.diametro_carga_mm.getD 64
  let ql := ql_of rho dmm
  let energia_u := pyOr energia_unidad 4.2
  if charges.1 = [] ∨ charges.1.length ≠ charges.2.length then ⟨0, 0, 0, 0, 0⟩
  else
    let longitudes := (charges.1.zip charges.2).map fun ab => elen ab.1 ab.2
    let L_prom := longitudes.sum / longitudes.length
    let L_total := longitudes.sum
    let M_total := L_total * ql
    let E_total := M_total * energia_u
    let B := pyOr burden spacing
    let V_volado := B * spacing * L_prom * longitudes.length
    let E_esp := if V_volado > 0 then E_total / V_volado else 0
    ⟨M_total, E_total, E_esp, L_prom, V_volado⟩

-- ======================================================================
-- TimingDesigner (model.py lines 608-692)
-- ======================================================================

/-- One entry of the timing assignment. -/
structure TimingEntry where
  id : ℕ
  coords : Pt
  delay_ms : ℝ
  charge_kg : ℝ

/-- Result of `TimingDesigner.assign_timing`. -/
structure TimingData where
  timing : List TimingEntry
  Q_max : ℝ

/-- Lexicographic collar order used by `np.lexsort((collars[:,1],
collars[:,0]))`: primary key x, secondary key y, ascending. -/
def lexLe (a b : Pt) : Prop := a.1 < b.1 ∨ (a.1 = b.1 ∧ a.2 ≤ b.2)

instance : IsTotal Pt lexLe :=
  ⟨by
    intro a b
    rcases lt_trichotomy a.1 b.1 with h | h | h
    · exact Or.inl (Or.inl h)
    · rcases le_total a.2 b.2 with h2 | h2
      · exact Or.inl (Or.inr ⟨h, h2⟩)
      · exact Or.inr (Or.inr ⟨h.symm, h2⟩)
    · exact Or.inr (Or.inl h)⟩

instance : IsTrans Pt lexLe :=
  ⟨by
    rintro a b c (h | ⟨h, h2⟩) (g | ⟨g, g2⟩)
    · exact Or.inl (h.trans g)
    · exact Or.inl (g ▸ h)
    · exact Or.inl (h ▸ g)
    · exact Or.inr ⟨h.trans g, h2.trans g2⟩⟩

/-- Row/delay assignment fold of `assign_timing`: walks the sorted collars
carrying the 1-based index `i`, the current row number and the current
row's reference y (`fila_y`); a jump of more than 1 m in y starts a new
row. -/
def timingRows (step row_ms M_por : ℝ) :
    List Pt → ℕ → ℕ → Option ℝ → List TimingEntry
  | [], _, _, _ => []
  | p :: rest, i, fila, fy =>
    let fila2 : ℕ × ℝ :=
      match fy with
      | none => (fila, p.2)
      | some fyv => if |p.2 - fyv| > 1 then (fila + 1, p.2) else (fila, fyv)
    let delay := (fila2.1 : ℝ) * row_ms + ((i : ℝ) - 1) * step
    ⟨i, p, delay, M_por⟩ ::
      timingRows step row_ms M_por rest (i + 1) fila2.1 (some fila2.2)

/-- Python `round(x, 1)` on the exact real value: scale by 10 and round
half to even. -/
def pyRound1 (x : ℝ) : ℝ :=
  let s := 10 * x
  let f := Int.floor s
  let r := s - f
  let n : ℤ :=
    if r < 1 / 2 then f
    else if 1 / 2 < r then f + 1
    else if Even f then f else f + 1
  (n : ℝ) / 10

/-- Total charge mass grouped on one rounded delay key. -/
def delayGroupSum (entries : List TimingEntry) (k : ℝ) : ℝ :=
  (entries.map fun e => if pyRound1 e.delay_ms = k then e.charge_kg else 0).sum

/-- Python `max(values) if values else 0.0` over a list of reals. -/
def maxOfList : List ℝ → ℝ
  | [] => 0
  | q :: qs => qs.foldl max q

/-- Model of `TimingDesigner.assign_timing`: empty charges return an empty
timing with `Q_max = 0`; otherwise collars are sorted lexicographically
(`np.lexsort` is a stable sort, modelled by `List.insertionSort`), rows
and delays are assigned, the total mass is split evenly, and `Q_max` is
the maximum of the per-delay mass groups, the delays being grouped after
`round(delay, 1)`. -/
def assign_timing (charges : List Pt × List Pt) (charge_eval : EnergyData)
    (delay_step_ms delay_row_ms : Option ℝ) : TimingData :=
  if charges.1 = [] then ⟨[], 0⟩
  else
    let collars := charges.1
    let n_tiros := collars.length
    let step := pyOr delay_step_ms 25
    let row_ms := pyOr delay_row_ms 50
    let M_total := charge_eval.M_total
    let M_por := if 0 < n_tiros then M_total / n_tiros else 0
    let sorted := List.insertionSort lexLe collars
    let entries := timingRows step row_ms M_por sorted 1 0 none
    let keys := (entries.map fun e => pyRound1 e.delay_ms).dedup
    ⟨entries, maxOfList (keys.map (delayGroupSum entries))⟩

-- ======================================================================
-- RingEvaluator (model.py lines 698-799)
-- ======================================================================

/-- Result record of `RingEvaluator.evaluate_ring`. -/
structure RingMetrics where
  volumen : ℝ
  masa_explosivo : ℝ
  energia_total : ℝ
  energia_efectiva : ℝ
  energia_especifica : ℝ
  energia_especifica_efectiva : ℝ
  costo_total : ℝ
  costo_por_m3 : ℝ
  energia_por_dolar : ℝ
  eficiencia_energetica : ℝ

/-- Model of `RingEvaluator.evaluate_ring`.  The spacing defaults to `2.0`
and the burden to the spacing when the params dict does not carry them;
every ratio is guarded (`V > 0`, `C_total > 0`). -/
def evaluate_ring (design : Design) (u : UnitCosts) : RingMetrics :=
  let L_perf := total_drilled_length design.holes
  let L_carga := total_charge_length design.charges
  let rho := u.densidad_explosivo_gcc.getD 1.1
  let D := u.diametro_carga_mm.getD 64
  let E_u := u.energia_explosivo_MJkg.getD 4.2
  let q_l := ql_of rho D
  let M_total := q_l * L_carga
  let E_total := M_total * E_u
  let S := design.holes.params.spacing.getD 2
  let B := design.holes.params.burden.getD S
  let n_tiros := design.holes.collars.length
  let L_prom := L_perf / (max n_tiros 1 : ℕ)
  let V := S * B * L_prom * (max n_tiros 1 : ℕ) * 0.8
  let C_total := calculate_total_cost design u
  let C_m3 := if V > 0 then C_total / V else 0
  let Eesp := if V > 0 then E_total / V else 0
  let eficiencia : ℝ := 0.85
  let E_efectiva := E_total * eficiencia
  let Eesp_ef := if V > 0 then E_efectiva / V else 0
  let EporUSD := if C_total > 0 then E_total / C_total else 0
  ⟨V, M_total, E_total, E_efectiva, Eesp, Eesp_ef, C_total, C_m3, EporUSD,
    eficiencia * 100⟩

-- ======================================================================
-- RingFragmentation (model.py lines 805-858)
-- ======================================================================

/-- Rock parameters with the class defaults of `RingFragmentation`. -/
structure RockParams where
  A : ℝ := 5
  b : ℝ := 0.8
  E_ref : ℝ := 0.4
  k : ℝ := 1

/-- Result record of `RingFragmentation.evaluate_fragmentation`. -/
structure FragData where
  P80 : ℝ
  P50 : ℝ
  P20 : ℝ
  relacion_energia : ℝ

/-- Model of `RingFragmentation.evaluate_fragmentation`.  The only field of
`ring_metrics` the source reads is `energia_especifica_efectiva`, so the
input is that value, with `none` standing for a falsy (empty) metrics
dict, which short-circuits to an all-zero result.  Both the effective
specific energy and the reference energy are floored at `1e-3`, the Kuz-Ram
power law is evaluated with real exponentiation, and `P80` is clipped to
`[10, 400]` mm. -/
def evaluate_fragmentation (ring_metrics : Option ℝ)
    (rock_params : Option RockParams) : FragData :=
  match ring_metrics with
  | none => ⟨0, 0, 0, 0⟩
  | some eseff =>
    let params := rock_params.getD {}
    let E_esp := max eseff 1e-3
    let E_ref := max params.E_ref 1e-3
    let A := params.A
    let b := params.b
    let k := params.k
    let ratio := E_esp / E_ref
    let P80a := A * k * (E_ref / E_esp) ^ b * 1000
    let P80 := max 10 (min 400 P80a)
    ⟨P80, P80 * 0.67, P80 * 0.33, ratio⟩

-- ======================================================================
-- Geometry kernel: segment intersection, polygon membership
-- ======================================================================

/-- Result of intersecting two segments, mirroring the shapely geometry
kinds `empty` / `Point` / `LineString` that an intersection of two
`LineString`s can produce. -/
inductive SegInt where
  | empty : SegInt
  | point (p : Pt) : SegInt
  | overlap (a b : Pt) : SegInt
deriving DecidableEq

/-- Exact intersection of two closed segments.  Non-parallel segments meet
in at most one point (solved by cross products); parallel collinear
segments can share a point or a sub-segment. -/
def segInt (s1 s2 : Seg) : SegInt :=
  let p := s1.1
  let d1 := lineVec s1
  let q := s2.1
  let d2 := lineVec s2
  let den := cross2 d1 d2
  if den ≠ 0 then
    let t := cross2 (psub q p) d2 / den
    let u := cross2 (psub q p) d1 / den
    if 0 ≤ t ∧ t ≤ 1 ∧ 0 ≤ u ∧ u ≤ 1 then .point (padd p (psmul t d1))
    else .empty
  else
    if cross2 (psub q p) d1 = 0 ∧ cross2 (psub p q) d2 = 0 then
      if sqLen d1 ≠ 0 then
        let ta := dot2 (psub q p) d1 / sqLen d1
        let tb := dot2 (psub s2.2 p) d1 / sqLen d1
        let lo := max 0 (min ta tb)
        let hi := min 1 (max ta tb)
        if hi < lo then .empty
        else if hi = lo then .point (padd p (psmul lo d1))
        else .overlap (padd p (psmul lo d1)) (padd p (psmul hi d1))
      else if sqLen d2 ≠ 0 then
        let t := dot2 (psub p q) d2 / sqLen d2
        if 0 ≤ t ∧ t ≤ 1 then .point p else .empty
      else if p = q then .point p else .empty
    else .empty

/-- Point components of a segment-intersection result (a `LineString`
overlap contributes no `Point`, matching the `isinstance(g, Point)` filter
in `_sort_points`). -/
def segIntPts : SegInt → List Pt
  | .point p => [p]
  | _ => []

/-- Edges of a closed polygon ring given by its vertex list. -/
def ringEdges (ring : List Pt) : List Seg :=
  ring.zip (ring.drop 1 ++ ring.take 1)

/-- All per-edge intersections of a segment with a polygon ring. -/
def segRingAll (s : Seg) (ring : List Pt) : List SegInt :=
  (ringEdges ring).map (segInt s)

/-- Whether the raw `shapely` intersection of a segment with a ring is
non-empty (it may consist solely of overlap `LineString`s). -/
def segRingNonempty (s : Seg) (ring : List Pt) : Prop :=
  ∃ r ∈ segRingAll s ring, r ≠ SegInt.empty

/-- Distinct intersection points of a segment with a polygon ring
(shapely returns each point once; overlap pieces are not points). -/
def segRingPts (s : Seg) (ring : List Pt) : List Pt :=
  ((segRingAll s ring).flatMap segIntPts).dedup

/-- Model of `_sort_points`: sort points by distance to the pivot
(Python's stable `list.sort`, modelled by the stable
`List.insertionSort`). -/
def _sort_points (pts : List Pt) (pivot : Pt) : List Pt :=
  List.insertionSort (fun p q => elen p pivot ≤ elen q pivot) pts

/-- Membership of a point on a closed segment. -/
def onSeg (s : Seg) (x : Pt) : Prop :=
  ∃ t, 0 ≤ t ∧ t ≤ 1 ∧ x = padd s.1 (psmul t (lineVec s))

/-- Membership of a point on a polygon's boundary ring. -/
def ringMem (ring : List Pt) (x : Pt) : Prop :=
  ∃ e ∈ ringEdges ring, onSeg e x

/-- Whether the horizontal ray to the right of `x` crosses an edge
(standard even-odd crossing rule, half-open in y to count each vertex
crossing once). -/
def crossesRay (x : Pt) (e : Seg) : Prop :=
  ((e.1.2 ≤ x.2 ∧ x.2 < e.2.2) ∨ (e.2.2 ≤ x.2 ∧ x.2 < e.1.2)) ∧
    x.1 < e.1.1 + (x.2 - e.1.2) * (e.2.1 - e.1.1) / (e.2.2 - e.1.2)

/-- Number of ring edges crossed by the rightward horizontal ray. -/
def crossCount (ring : List Pt) (x : Pt) : ℕ :=
  ((ringEdges ring).map fun e => if crossesRay x e then 1 else 0).sum

/-- A point of the closed polygonal region bounded by `ring` (boundary or
even-odd interior).  Models shapely `intersects`-style containment. -/
def inPolyClosed (ring : List Pt) (x : Pt) : Prop :=
  ringMem ring x ∨ Odd (crossCount ring x)

/-- Interior membership: models shapely `polygon.contains(point)`, which
excludes the boundary. -/
def polyContainsPt (ring : List Pt) (x : Pt) : Prop :=
  ¬ ringMem ring x ∧ Odd (crossCount ring x)

/-- Model of `segment.intersects(polygon)`: some point of the segment lies
in the closed polygonal region. -/
def segIntersectsPoly (s : Seg) (ring : List Pt) : Prop :=
  ∃ x, onSeg s x ∧ inPolyClosed ring x

-- ======================================================================
-- Polygon validity and repair (`_fix_polygon`, model.py lines 129-166)
-- ======================================================================

/-- Twice the signed area of a ring (shoelace sum). -/
def ringArea2 (ring : List Pt) : ℝ :=
  ((ringEdges ring).map fun e => cross2 e.1 e.2).sum

/-- Edge-pair compatibility for a simple polygon: two distinct edges may
meet only in a point that is an endpoint of both. -/
def ringSimpleOK (ring : List Pt) : Prop :=
  ∀ i j : ℕ, i < j → ∀ ei ej : Seg,
    (ringEdges ring)[i]? = some ei → (ringEdges ring)[j]? = some ej →
    match segInt ei ej with
    | .empty => True
    | .point p => (ei.1 = p ∨ ei.2 = p) ∧ (ej.1 = p ∨ ej.2 = p)
    | .overlap _ _ => False

/-- Model of shapely polygon validity for a ring: at least three vertices,
non-zero area, and no improper self-intersection. -/
def ringValid (ring : List Pt) : Prop :=
  3 ≤ ring.length ∧ ringArea2 ring ≠ 0 ∧ ringSimpleOK ring

/-- An axis-aligned rectangle ring, in the corner order used by the
`_fix_polygon` fallback. -/
def rectRing (x0 y0 x1 y1 : ℝ) : List Pt :=
  [(x0, y0), (x1, y0), (x1, y1), (x0, y1)]

/-- The axis-aligned bounding rectangle of a coordinate list, with the
source's `(0,1)` defaults on an empty list. -/
def boundingRect (coords : List Pt) : List Pt :=
  let xs := coords.map Prod.fst
  let ys := coords.map Prod.snd
  let x0 := (xs.min?).getD 0
  let x1 := (xs.max?).getD 1
  let y0 := (ys.min?).getD 0
  let y1 := (ys.max?).getD 1
  rectRing x0 y0 x1 y1

/-- Final step of `_fix_polygon`: if the polygon is still empty or
invalid, fall back to the bounding rectangle. -/
def fixFinish (coords : List Pt) : Option (List Pt) → List Pt
  | some r => if ringValid r then r else boundingRect coords
  | none => boundingRect coords

/-- Model of `_fix_polygon`.  `Polygon(coords)` raises for one or two
coordinates (caught, yielding an empty polygon) and yields an empty polygon
for no coordinates; `buffer(0)` repair (tried only when the polygon is
empty or invalid and there are at least three coordinates) is abstracted
by the `buffer0` oracle, whose `none` models an exception and whose result
is kept only when non-empty and valid; any remaining empty or invalid
polygon falls back to the axis-aligned bounding rectangle. -/
def _fix_polygon (buffer0 : List Pt → Option (List Pt))
    (coords : List Pt) : List Pt :=
  let poly : Option (List Pt) :=
    if 3 ≤ coords.length then some coords else none
  let poly2 : Option (List Pt) :=
    if (poly = none ∨ ∀ r, poly = some r → ¬ ringValid r) ∧ 3 ≤ coords.length then
      match buffer0 coords with
      | some fixed => if fixed ≠ [] ∧ ringValid fixed then some fixed else poly
      | none => poly
    else poly
  fixFinish coords poly2

-- ======================================================================
-- DrillFanGenerator construction (model.py lines 199-231)
-- ======================================================================

/-- Area centroid of a polygon ring (shapely `polygon.centroid`). -/
def ringCentroid (ring : List Pt) : Pt :=
  let A2 := ringArea2 ring
  (((ringEdges ring).map fun e => (e.1.1 + e.2.1) * cross2 e.1 e.2).sum / (3 * A2),
   ((ringEdges ring).map fun e => (e.1.2 + e.2.2) * cross2 e.1 e.2).sum / (3 * A2))

/-- Bounds of a ring: `(minx, miny, maxx, maxy)` as in shapely `.bounds`. -/
def ringBounds (ring : List Pt) : ℝ × ℝ × ℝ × ℝ :=
  (((ring.map Prod.fst).min?).getD 0, ((ring.map Prod.snd).min?).getD 0,
   ((ring.map Prod.fst).max?).getD 0, ((ring.map Prod.snd).max?).getD 0)

/-- The geometric state built by `DrillFanGenerator.__init__`. -/
structure Generator where
  stope : List Pt
  drift : List Pt
  pivot : Pt
  base_ray : Seg

/-- Rotation of a point about an origin by an angle in degrees,
counter-clockwise (`shapely.affinity.rotate` semantics). -/
def rotateDeg (angle : ℝ) (origin p : Pt) : Pt :=
  let r := radOfDeg angle
  (origin.1 + (p.1 - origin.1) * Real.cos r - (p.2 - origin.2) * Real.sin r,
   origin.2 + (p.1 - origin.1) * Real.sin r + (p.2 - origin.2) * Real.cos r)

/-- Rotation of a two-point line about an origin by an angle in degrees. -/
def rotateLine (angle : ℝ) (origin : Pt) (l : Seg) : Seg :=
  (rotateDeg angle origin l.1, rotateDeg angle origin l.2)

/-- Model of `DrillFanGenerator.__init__`: both polygons are repaired, a
pivot inside the stope is pushed 1 m below the stope's lower bound, and the
base ray of length `1e4` is laid from the pivot towards the stope centroid
(`cos`/`sin` of the reference angle obtained with `arctan2`). -/
def mkGenerator (buffer0 : List Pt → Option (List Pt))
    (stope_geom drift_geom : List Pt) (pivot_geom : Pt) : Generator :=
  let stope := _fix_polygon buffer0 stope_geom
  let drift := _fix_polygon buffer0 drift_geom
  let pivot0 := pivot_geom
  let pivot :=
    if polyContainsPt stope pivot0 then (pivot0.1, (ringBounds stope).2.1 - 1)
    else pivot0
  let c := ringCentroid stope
  let ref_angle := degOfRad (atan2 (c.2 - pivot.2) (c.1 - pivot.1))
  let base_ray : Seg :=
    (pivot,
     (pivot.1 + Real.cos (radOfDeg ref_angle) * 10000,
      pivot.2 + Real.sin (radOfDeg ref_angle) * 10000))
  ⟨stope, drift, pivot, base_ray⟩

-- ======================================================================
-- Hole endpoints and validity (model.py lines 235-267)
-- ======================================================================

/-- Model of `DrillFanGenerator._find_endpoints`: the collar is the
drift-boundary intersection closest to the pivot, the toe the
stope-boundary intersection farthest from the pivot, and the toe is pulled
back to `max_length` (measured from the collar) when the hole is too
long.  The source's separate `is_empty` and empty-candidate checks both
collapse to an empty candidate list here. -/
def _find_endpoints (G : Generator) (ray : Seg) (max_length : ℝ) :
    Option Pt × Option Pt :=
  match _sort_points (segRingPts ray G.drift) G.pivot with
  | [] => (none, none)
  | collar :: _ =>
    match (_sort_points (segRingPts ray G.stope) G.pivot).getLast? with
    | none => (none, none)
    | some toe =>
      let toe2 :=
        if elen collar toe > max_length then interpolate collar toe max_length
        else toe
      (some collar, some toe2)

/-- Model of `DrillFanGenerator._is_valid_hole`: both endpoints must
exist, the hole must reach the minimum length and must intersect the
stope. -/
def _is_valid_hole (collar toe : Option Pt) (min_length : ℝ)
    (stope : List Pt) : Prop :=
  match collar, toe with
  | some c, some t =>
    ¬ elen c t < min_length ∧ segIntersectsPoly (c, t) stope
  | _, _ => False

-- ======================================================================
-- generate_angular (model.py lines 300-317)
-- ======================================================================

/-- Loop of `generate_angular`: one endpoint attempt per iteration,
rotating the ray by the constant angular spacing afterwards; valid holes
are appended and invalid ones silently dropped. -/
def angularLoop (G : Generator) (min_len max_len spacing : ℝ) :
    ℕ → Seg → List Pt × List Pt
  | 0, _ => ([], [])
  | n + 1, line =>
    let ct := _find_endpoints G line max_len
    let rest :=
      angularLoop G min_len max_len spacing n (rotateLine spacing G.pivot line)
    if _is_valid_hole ct.1 ct.2 min_len G.stope then
      match ct.1, ct.2 with
      | some c, some t => (c :: rest.1, t :: rest.2)
      | _, _ => rest
    else rest

/-- Model of `DrillFanGenerator.generate_angular`: `holes_number` rays at
equal angular increments between `min_angle` and `max_angle`. -/
def generate_angular (G : Generator) (p : FanParams) : FanDesign :=
  let n : ℕ := (max p.holes_number 0).toNat
  let spacing : ℝ :=
    if 1 < n then (p.max_angle - p.min_angle) / ((n : ℝ) - 1) else 0
  let line0 := rotateLine p.min_angle G.pivot G.base_ray
  let lists := angularLoop G p.min_length p.max_length spacing n line0
  ⟨lists.1, lists.2, p⟩

-- ======================================================================
-- generate_direct (model.py lines 319-371)
-- ======================================================================

/-- Intersection of the circle of centre `c`, radius `r` with a closed
segment: the parameter-space quadratic solutions lying in `[0, 1]`.
(Shapely builds the circle as the polygonal `buffer(r).exterior`
approximation; the model uses the exact circle.) -/
def circleSegInts (c : Pt) (r : ℝ) (s : Seg) : List Pt :=
  let d := lineVec s
  let f := psub s.1 c
  let A := sqLen d
  if A = 0 then if sqLen f = r ^ 2 then [s.1] else []
  else
    let B := 2 * dot2 f d
    let C := sqLen f - r ^ 2
    let disc := B ^ 2 - 4 * A * C
    if disc < 0 then []
    else
      let sq := Real.sqrt disc
      let t1 := (-B - sq) / (2 * A)
      let t2 := (-B + sq) / (2 * A)
      (if 0 ≤ t1 ∧ t1 ≤ 1 then [padd s.1 (psmul t1 d)] else []) ++
        (if (0 ≤ t2 ∧ t2 ≤ 1) ∧ t2 ≠ t1 then [padd s.1 (psmul t2 d)] else [])

/-- Distinct intersection points of a circle with a polygon ring. -/
def circleRingPts (c : Pt) (r : ℝ) (ring : List Pt) : List Pt :=
  ((ringEdges ring).flatMap (circleSegInts c r)).dedup

/-- Candidate scan of `generate_direct`: keep the intersection point with
the largest angular advance `d` over the current ray whose absolute angle
lies in `[amin, amax]` (strict improvement over the running best, started
at `-1e9`). -/
def directScan (G : Generator) (line : Seg) (amin amax : ℝ)
    (pts : List Pt) : Option Pt × ℝ :=
  pts.foldl
    (fun acc q =>
      let nxt : Seg := (G.pivot, q)
      let d := _angle_between line nxt
      let abs_ang := _angle_between G.base_ray nxt
      if (amin ≤ abs_ang ∧ abs_ang ≤ amax) ∧ d > acc.2 then (some q, d)
      else acc)
    (none, -1e9)

/-- Iterative loop of `generate_direct`: intersect the circle of radius
`spacing` centred on the previous toe with the stope boundary, choose the
best forward candidate, and stop on any of the source's break conditions.
A lone intersection point is a shapely `Point`, which has no `.geoms`
attribute, so the loop also stops when fewer than two points are found. -/
def directLoop (G : Generator) (spacing amin amax max_len min_len : ℝ) :
    ℕ → Pt → Seg → List Pt × List Pt
  | 0, _, _ => ([], [])
  | k + 1, toe, line =>
    let pts := circleRingPts toe spacing G.stope
    if pts.length ≤ 1 then ([], [])
    else
      match (directScan G line amin amax pts).1 with
      | none => ([], [])
      | some best =>
        if elen best toe < 1e-6 ∨ ¬ segIntersectsPoly (G.pivot, best) G.stope
          then ([], [])
        else
          let abs_ang := _angle_between G.base_ray (G.pivot, best)
          if abs_ang > amax ∨ abs_ang < amin then ([], [])
          else
            let line2 : Seg := (G.pivot, best)
            let ct := _find_endpoints G line2 max_len
            if _is_valid_hole ct.1 (some best) min_len G.stope then
              match ct.1 with
              | some c =>
                let rest :=
                  directLoop G spacing amin amax max_len min_len k best line2
                (c :: rest.1, best :: rest.2)
              | none => ([], [])
            else ([], [])

/-- Model of `DrillFanGenerator.generate_direct`.  Note that the toes of
all holes after the first come directly from the circle intersection and
are never clipped to `max_length`. -/
def generate_direct (G : Generator) (p : FanParams) : FanDesign :=
  let spacing := p.spacing.getD 0
  let amin := p.min_angle
  let amax := p.max_angle
  let max_len := p.max_length
  let min_len := p.min_length
  let line := rotateLine amin G.pivot G.base_ray
  let ct := _find_endpoints G line max_len
  if _is_valid_hole ct.1 ct.2 min_len G.stope then
    match ct.1, ct.2 with
    | some c, some t =>
      let rest := directLoop G spacing amin amax max_len min_len 400 t line
      ⟨c :: rest.1, t :: rest.2, p⟩
    | _, _ => ⟨[], [], p⟩
  else ⟨[], [], p⟩

-- ======================================================================
-- generate_offset (model.py lines 373-399)
-- ======================================================================

/-- Side classification of `_point_side`. -/
inductive Side where
  | left : Side
  | right : Side
  | over : Side
deriving DecidableEq

/-- Model of `_point_side`: side of an oriented line a point falls on,
with the source's `1e-6` tolerance band mapped to `over` (the source
labels a positive determinant `right`). -/
def _point_side (l : Seg) (p : Pt) : Side :=
  let d := (p.1 - l.1.1) * (l.2.2 - l.1.2) - (p.2 - l.1.2) * (l.2.1 - l.1.1)
  if d > 1e-6 then .right
  else if d < -1e-6 then .left
  else .over

/-- Intersection points of two circle boundaries (radical-line
construction). -/
def circleCircleInts (c1 : Pt) (r1 : ℝ) (c2 : Pt) (r2 : ℝ) : List Pt :=
  let d2 := sqLen (psub c2 c1)
  if d2 = 0 then []
  else
    let d := Real.sqrt d2
    let a := (d2 + r1 ^ 2 - r2 ^ 2) / (2 * d)
    let h2 := r1 ^ 2 - a ^ 2
    if h2 < 0 then []
    else
      let base := padd c1 (psmul (a / d) (psub c2 c1))
      let pv := psmul (Real.sqrt h2 / d) (-(c2.2 - c1.2), c2.1 - c1.1)
      if h2 = 0 then [base] else [padd base pv, psub base pv]

/-- Model of `_get_tangents`: Thales construction, the intersection of the
circle `(center, radius)` with the circle whose diameter is the segment
from `ext_point` to `center`; distances below `1e-6` yield no points. -/
def _get_tangents (center : Pt) (radius : ℝ) (ext_point : Pt) : List Pt :=
  let L := elen ext_point center
  if L < 1e-6 then []
  else
    let mid := padd ext_point (psmul (1 / 2) (psub center ext_point))
    let mid_radius := 0.5 * L
    if mid_radius < 1e-6 then []
    else circleCircleInts center radius mid mid_radius

/-- Iterative loop of `generate_offset`: each iteration emits the current
hole if valid, then advances the ray to the tangent point (from the pivot
to the circle of radius `spacing` around the unclipped toe) lying on the
desired side of the current ray. -/
def offsetLoop (G : Generator) (spacing max_len min_len : ℝ)
    (desired : Side) : ℕ → Seg → List Pt × List Pt
  | 0, _ => ([], [])
  | k + 1, line =>
    let ct := _find_endpoints G line max_len
    if _is_valid_hole ct.1 ct.2 min_len G.stope then
      match ct.1, ct.2 with
      | some c, some t =>
        let tail : List Pt × List Pt :=
          match (_find_endpoints G line 1e6).2 with
          | none => ([], [])
          | some full_toe =>
            let tang := _get_tangents full_toe spacing G.pivot
            if tang.length ≤ 1 then ([], [])
            else
              match tang.filter (fun q => _point_side line q == desired) with
              | [] => ([], [])
              | q :: _ =>
                if elen q t < 1e-6 then ([], [])
                else offsetLoop G spacing max_len min_len desired k (G.pivot, q)
        (c :: tail.1, t :: tail.2)
      | _, _ => ([], [])
    else ([], [])

/-- Model of `DrillFanGenerator.generate_offset`: tangency to circles at
the previous (unclipped) toe, the tangent side chosen by the sign of
`max_angle - min_angle`. -/
def generate_offset (G : Generator) (p : FanParams) : FanDesign :=
  let spacing := p.spacing.getD 0
  let side_left := p.max_angle > p.min_angle
  let desired : Side := if side_left then .left else .right
  let line := rotateLine p.min_angle G.pivot G.base_ray
  let lists := offsetLoop G spacing p.max_length p.min_length desired 400 line
  ⟨lists.1, lists.2, p⟩

-- ======================================================================
-- generate_aeci (model.py lines 401-473)
-- ======================================================================

/-- Model of `_safe_parallel_offset` on a straight two-point line: shift
perpendicularly by `distance` to the given side.  The offset of a straight
segment is a single parallel segment (so the nearest-branch selection is
trivial); a zero-length line has no offset. -/
def _safe_parallel_offset (l : Seg) (distance : ℝ) (side : Side) :
    Option Seg :=
  let d := lineVec l
  let L := Real.sqrt (sqLen d)
  if L = 0 then none
  else
    let nrm :=
      if side = Side.left then psmul L⁻¹ (-d.2, d.1)
      else psmul L⁻¹ (d.2, -d.1)
    let off := psmul distance nrm
    some (padd l.1 off, padd l.2 off)

/-- Model of `_nearest_on` restricted to the geometry kinds produced by a
segment-segment intersection: nothing for an empty geometry, the point
itself, or the clamped projection of the reference point onto an overlap
segment (`project` followed by `interpolate`). -/
def _nearest_on (g : SegInt) (ref : Pt) : Option Pt :=
  match g with
  | .empty => none
  | .point p => some p
  | .overlap a b =>
    let d := psub b a
    if sqLen d = 0 then some a
    else
      let t := max 0 (min 1 (dot2 (psub ref a) d / sqLen d))
      some (padd a (psmul t d))

/-- The smaller dimension of a polygon's bounding box. -/
def smallerBBoxDim (stope : List Pt) : ℝ :=
  min ((ringBounds stope).2.2.1 - (ringBounds stope).1)
    ((ringBounds stope).2.2.2 - (ringBounds stope).2.1)

/-- Spacing cap of `generate_aeci`: 90 % of the smaller dimension of the
stope's bounding box, the dimension being floored at `1e-6`. -/
def aeciSpacingCap (stope : List Pt) : ℝ :=
  0.9 * max 1e-6 (smallerBBoxDim stope)

/-- Effective spacing used by `generate_aeci` to build its parallel
offsets: the requested spacing capped by `aeciSpacingCap` (zero for a
non-positive request). -/
def aeciEffSpacing (spacing : ℝ) (stope : List Pt) : ℝ :=
  if spacing > 0 then min spacing (aeciSpacingCap stope) else 0

/-- Iterative loop of `generate_aeci`.  The result is `none` when the
iteration raises (the source indexes `_sort_points(ints, pivot)[-1]`,
an `IndexError` when the raw intersection is non-empty but contains no
point components), which discards all holes accumulated so far. -/
def aeciLoop (G : Generator) (eff amin amax max_len min_len : ℝ)
    (side : Side) (ref : Seg) : ℕ → Seg → Option (List Pt × List Pt)
  | 0, _ => some ([], [])
  | k + 1, line =>
    if ¬ segIntersectsPoly line G.stope then some ([], [])
    else
      let ct := _find_endpoints G line max_len
      if _is_valid_hole ct.1 ct.2 min_len G.stope then
        match ct.1, ct.2 with
        | some collar, some toe =>
          let tail : Option (List Pt × List Pt) :=
            match _safe_parallel_offset line (0.5 * eff) side,
                _safe_parallel_offset line eff side with
            | some off1, some off2 =>
              if ¬ segRingNonempty off1 G.stope then some ([], [])
              else
                match (_sort_points (segRingPts off1 G.stope) G.pivot).getLast? with
                | none => none
                | some pivot_int =>
                  let perp :=
                    rotateLine (if side = Side.left then -90 else 90) pivot_int off1
                  let nxt_pt :=
                    match segInt perp off2 with
                    | .point q => some q
                    | g => _nearest_on g pivot_int
                  match nxt_pt with
                  | none => some ([], [])
                  | some q =>
                    let cand : Seg := (G.pivot, q)
                    let abs_ang := _angle_between ref cand
                    if ¬ (amin ≤ abs_ang ∧ abs_ang ≤ amax) then some ([], [])
                    else if elen q toe < 1e-6 then some ([], [])
                    else aeciLoop G eff amin amax max_len min_len side ref k cand
            | _, _ => some ([], [])
          match tail with
          | none => none
          | some rest => some (collar :: rest.1, toe :: rest.2)
        | _, _ => some ([], [])
      else some ([], [])

/-- Model of `DrillFanGenerator.generate_aeci`: contour-following advance
by two parallel offsets (`0.5 x eff_spacing` and `1.0 x eff_spacing`) of
the current ray; its local reference ray points straight up from the
pivot.  `none` models an uncaught `IndexError` inside the loop. -/
def generate_aeci (G : Generator) (p : FanParams) : Option FanDesign :=
  let spacing := p.spacing.getD 1
  let amin := p.min_angle
  let amax := p.max_angle
  let side : Side := if p.max_angle > p.min_angle then .left else .right
  let ref : Seg := (G.pivot, (G.pivot.1, G.pivot.2 + 10000))
  let line := rotateLine amin G.pivot ref
  let eff := aeciEffSpacing spacing G.stope
  (aeciLoop G eff amin amax p.max_length p.min_length side ref 400 line).map
    fun ls => ⟨ls.1, ls.2, p⟩

-- ======================================================================
-- Optimizer (model.py lines 960-1109)
-- ======================================================================

/-- Design method selector (`cfg["design_method"].lower()`); `other`
stands for any unrecognised string, which the dispatch sends to
`generate_angular`. -/
inductive Method where
  | angular : Method
  | directo : Method
  | offset : Method
  | aeci : Method
  | other : Method
deriving DecidableEq

/-- The optimizer configuration dict, with the source's `.get` defaults. -/
structure OptConfig where
  design_method : Method
  s_min : ℝ := 1
  s_max : ℝ := 5
  presupuesto_maximo : ℝ := 0
  unit_costs : UnitCosts
  min_angle : ℝ := -45
  max_angle : ℝ := 45
  max_length : ℝ := 30
  min_length : ℝ := 0.3
  stemming : ℝ := 0
  rock_params : Option RockParams := none

/-- The four generator entry points used by `Optimizer.run` through its
injected `DrillFanGenerator`; a `none` result models an exception raised
inside the generator (caught by the sweep's `try`). -/
structure GenDeps where
  angular : FanParams → Option FanDesign
  directo : FanParams → Option FanDesign
  offset : FanParams → Option FanDesign
  aeci : FanParams → Option FanDesign

/-- The generator bundle of the real `DrillFanGenerator` instance. -/
def realDeps (G : Generator) : GenDeps where
  angular := fun p => some (generate_angular G p)
  directo := fun p => some (generate_direct G p)
  offset := fun p => some (generate_offset G p)
  aeci := fun p => generate_aeci G p

/-- One accepted sweep point: `{"S", "method", "design", "metrics",
"cost", "num_holes", "P80"}`. -/
structure Trial where
  S : ℝ
  method : Method
  design : Design
  metrics : RingMetrics
  cost : ℝ
  num_holes : ℕ
  P80 : ℝ

/-- The optimizer's result dict `{"best": ..., "trials": ...}`. -/
structure RunResult where
  best : Trial
  trials : List Trial

/-- Python `int()` truncation of a float towards zero. -/
def pyInt (x : ℝ) : ℤ := if 0 ≤ x then ⌊x⌋ else ⌈x⌉

/-- The list of swept values: `range(int(s_min), int(s_max) + 1)` for the
`angular` method and `np.arange(s_min, s_max + 0.001, 0.5)` for the
spacing-controlled methods. -/
def sweepValues (cfg : OptConfig) : List ℝ :=
  match cfg.design_method with
  | .angular =>
    (List.range (pyInt cfg.s_max + 1 - pyInt cfg.s_min).toNat).map
      fun k : ℕ => ((pyInt cfg.s_min + (k : ℤ) : ℤ) : ℝ)
  | _ =>
    (List.range (⌈(cfg.s_max + 0.001 - cfg.s_min) / 0.5⌉.toNat)).map
      fun k : ℕ => cfg.s_min + 0.5 * (k : ℝ)

/-- The per-sweep generation call of `Optimizer.run` for one swept value. -/
def genAt (deps : GenDeps) (cfg : OptConfig) (S : ℝ) : Option FanDesign :=
  let base : FanParams :=
    { holes_number := 0, spacing := none, burden := none,
      min_angle := cfg.min_angle, max_angle := cfg.max_angle,
      max_length := cfg.max_length, min_length := cfg.min_length }
  match cfg.design_method with
  | .angular => deps.angular { base with holes_number := pyInt S }
  | .directo => deps.directo { base with spacing := some S }
  | .offset => deps.offset { base with spacing := some S }
  | .aeci => deps.aeci { base with spacing := some S }
  | .other => deps.angular { base with holes_number := pyInt S }

/-- The full evaluation pipeline of one sweep iteration, on a generated
hole design: charges, energy, timing, ring metrics and fragmentation.
The advisory `log` callback carries no control flow and is omitted. -/
def evalDesign (cfg : OptConfig) (S : ℝ) (holes : FanDesign) :
    Design × RingMetrics × FragData :=
  let charges := get_charges holes cfg.stemming
  let design : Design := ⟨holes, charges⟩
  let energy := evaluate_energy charges cfg.unit_costs S none none
  let _timing := assign_timing charges energy none none
  let metrics := evaluate_ring design cfg.unit_costs
  let frag :=
    evaluate_fragmentation (some metrics.energia_especifica_efectiva)
      cfg.rock_params
  (design, metrics, frag)

/-- One sweep iteration of `Optimizer.run`: `none` stands for a `continue`
(generator exception, empty geometry, or an infeasible cost), `some t` for
an appended trial.  The embedded evaluators are total functions, so the
inner `except` branch of the source is unreachable here. -/
def stepTrial (deps : GenDeps) (cfg : OptConfig) (S : ℝ) : Option Trial :=
  match genAt deps cfg S with
  | none => none
  | some holes =>
    if holes.collars = [] then none
    else
      let dmf := evalDesign cfg S holes
      let cost := dmf.2.1.costo_total
      let n_tiros := holes.collars.length
      if cost ≤ cfg.presupuesto_maximo ∧ 0 < n_tiros then
        some ⟨S, cfg.design_method, dmf.1, dmf.2.1, cost, n_tiros, dmf.2.2.P80⟩
      else none

/-- First-encountered minimum-cost selection: Python's
`min(trials, key=lambda d: d["cost"])`. -/
def bestOf (t : Trial) (ts : List Trial) : Trial :=
  ts.foldl (fun b x => if x.cost < b.cost then x else b) t

/-- Model of `Optimizer.run`: sweep every value, keep the feasible trials
in sweep order, and return `none` when there are none, otherwise the
first-encountered minimum-cost trial together with all feasible trials. -/
def Optimizer.run (deps : GenDeps) (cfg : OptConfig) : Option RunResult :=
  let trials := (sweepValues cfg).filterMap (stepTrial deps cfg)
  match trials with
  | [] => none
  | t :: ts => some ⟨bestOf t ts, t :: ts⟩

-- ======================================================================
-- Basic helper lemmas
-- ======================================================================

lemma sqLen_nonneg (v : Pt) : 0 ≤ sqLen v := by
  have := sq_nonneg v.1
  have := sq_nonneg v.2
  rw [sqLen]
  linarith

lemma elen_nonneg (a b : Pt) : 0 ≤ elen a b := Real.sqrt_nonneg _

/-- Evaluate a concrete Euclidean distance from its squared value. -/
lemma elen_eval {a b : Pt} {r : ℝ} (hr : 0 ≤ r)
    (h : sqLen (psub b a) = r ^ 2) : elen a b = r := by
  rw [elen, h, Real.sqrt_sq hr]

lemma sqLen_psmul (c : ℝ) (v : Pt) : sqLen (psmul c v) = c ^ 2 * sqLen v := by
  simp only [sqLen, psmul]
  ring

lemma psub_padd_smul (a b : Pt) (c : ℝ) :
    psub b (padd a (psmul c (psub b a))) = psmul (1 - c) (psub b a) := by
  simp only [psub, padd, psmul, Prod.mk.injEq]
  constructor <;> ring

lemma padd_smul_psub (a b : Pt) (c : ℝ) :
    psub (padd a (psmul c (psub b a))) a = psmul c (psub b a) := by
  simp only [psub, padd, psmul, Prod.mk.injEq]
  constructor <;> ring

/-- Distance from the far end to a point placed a fraction `c` of the way
from `a` to `b`. -/
lemma elen_padd_smul_right (a b : Pt) (c : ℝ) :
    elen (padd a (psmul c (psub b a))) b = |1 - c| * elen a b := by
  rw [elen, psub_padd_smul, sqLen_psmul, elen,
    Real.sqrt_mul (sq_nonneg _), Real.sqrt_sq_eq_abs]

/-- Distance from `a` to a point placed a fraction `c` of the way from
`a` to `b`. -/
lemma elen_padd_smul_left (a b : Pt) (c : ℝ) :
    elen a (padd a (psmul c (psub b a))) = |c| * elen a b := by
  rw [elen, padd_smul_psub, sqLen_psmul, elen,
    Real.sqrt_mul (sq_nonneg _), Real.sqrt_sq_eq_abs]

lemma degOfRad_le_180 {r : ℝ} (h : r ≤ π) : degOfRad r ≤ 180 := by
  rw [degOfRad, div_le_iff₀ Real.pi_pos]
  nlinarith [Real.pi_pos]

lemma neg180_lt_degOfRad {r : ℝ} (h : -π < r) : -180 < degOfRad r := by
  rw [degOfRad, lt_div_iff₀ Real.pi_pos]
  nlinarith [Real.pi_pos]

lemma neg_pi_lt_atan2 (y x : ℝ) : -π < atan2 y x := Complex.neg_pi_lt_arg _

lemma atan2_le_pi (y x : ℝ) : atan2 y x ≤ π := Complex.arg_le_pi _

-- ======================================================================
-- C8: signed-angle range
-- ======================================================================

/-- C8: for every pair of input lines the signed-angle computation
`_angle_between` returns a value in degrees strictly greater than `-180`
and at most `+180`, and it returns `0` whenever either direction vector
has zero length. -/
theorem C8_signed_angle_range (la lb : Seg) :
    (-180 < _angle_between la lb ∧ _angle_between la lb ≤ 180) ∧
    ((lineVec la = (0, 0) ∨ lineVec lb = (0, 0)) →
      _angle_between la lb = 0) := by
  simp only [_angle_between]
  split_ifs with h
  · exact ⟨⟨by norm_num, by norm_num⟩, fun _ => rfl⟩
  · refine ⟨⟨neg180_lt_degOfRad (neg_pi_lt_atan2 _ _),
      degOfRad_le_180 (atan2_le_pi _ _)⟩, ?_⟩
    intro h0
    exfalso
    apply h
    rcases h0 with h0 | h0
    · exact Or.inl (by rw [h0]; simp [sqLen])
    · exact Or.inr (by rw [h0]; simp [sqLen])

/-- Witness for C8 at a concrete degenerate line: the first line's
direction vector is null, so the angle is `0`, and the bounds hold. -/
theorem C8_signed_angle_range_witness :
    (-180 < _angle_between ((0, 0), (0, 0)) ((0, 0), (1, 0)) ∧
      _angle_between ((0, 0), (0, 0)) ((0, 0), (1, 0)) ≤ 180) ∧
    _angle_between ((0, 0), (0, 0)) ((0, 0), (1, 0)) = 0 := by
  have h := C8_signed_angle_range ((0, 0), (0, 0)) ((0, 0), (1, 0))
  exact ⟨h.1, h.2 (Or.inl (by norm_num [lineVec, psub]))⟩

-- ======================================================================
-- C9: linear charge density
-- ======================================================================

/-- C9 counterexample: the density constant used by the code is the
rounded `7.854e-4`, so at `D = 64 mm`, `rho = 1.1 g/cc` it is not exactly
equal to the closed-form `(pi/4)*(D/1000)^2*(rho*1000)`. -/
theorem C9_exact_pi_formula_refuted :
    ql_of 1.1 64 ≠ π / 4 * ((64 : ℝ) / 1000) ^ 2 * (1.1 * 1000) := by
  have hlt := Real.pi_lt_d6
  rw [ql_of]
  intro h2
  nlinarith [h2, hlt]

/-- C9 (amended): the linear charge density shared by the energy and cost
evaluators is `7.854e-4 * rho * D^2` kg/m, the source's four-significant-
figure rounding of `(pi/4)*(D/1000)^2*(rho*1000)`; at `D = 64`,
`rho = 1.1` it equals `3.53869824` (approximately `3.538`) kg/m and is
within `1e-4` of the exact formula; explosive mass is the total charge
length times this density in both evaluators. -/
theorem C9_linear_charge_density :
    (∀ rho dmm : ℝ, ql_of rho dmm = 7.854e-4 * rho * dmm ^ 2) ∧
    ql_of 1.1 64 = 3.53869824 ∧
    |ql_of 1.1 64 - π / 4 * ((64 : ℝ) / 1000) ^ 2 * (1.1 * 1000)| < 1e-4 ∧
    |ql_of 1.1 64 - 3.538| < 1e-3 ∧
    (∀ (c : List Pt × List Pt) (u : UnitCosts) (S : ℝ) (b e : Option ℝ),
      (evaluate_energy c u S b e).M_total =
        total_charge_length c *
          ql_of (u.densidad_explosivo_gcc.getD 1.1)
            (u.diametro_carga_mm.getD 64)) ∧
    (∀ (d : Design) (u : UnitCosts),
      calculate_total_cost d u =
        total_drilled_length d.holes * u.perforacion_por_metro.getD 0 +
          d.holes.collars.length * u.detonador_por_unidad.getD 0 +
          total_charge_length d.charges *
              ql_of (u.densidad_explosivo_gcc.getD 0)
                (u.diametro_carga_mm.getD 0) *
            u.explosivo_por_kg.getD 0) := by
  refine ⟨fun rho dmm => rfl, by rw [ql_of]; norm_num, ?_, ?_, ?_, ?_⟩
  · rw [ql_of, abs_lt]
    constructor <;> nlinarith [Real.pi_gt_d6, Real.pi_lt_d6]
  · rw [ql_of, abs_lt]
    constructor <;> norm_num
  · intro c u S b e
    simp only [evaluate_energy, total_charge_length, geoTotalLen]
    split_ifs with h h2 <;> simp
  · intro d u
    simp only [calculate_total_cost]

-- ======================================================================
-- C4: fragmentation model
-- ======================================================================

/-- The default-parameter `P80` in closed form, with the `1e-3` floor on
the effective specific energy made explicit. -/
lemma frag_P80_default (E : ℝ) :
    (evaluate_fragmentation (some E) none).P80 =
      max 10 (min 400 (5 * 1 * ((0.4 : ℝ) / max E 1e-3) ^ (0.8 : ℝ) * 1000)) := by
  simp only [evaluate_fragmentation, Option.getD]
  rw [show max (0.4 : ℝ) 1e-3 = 0.4 from max_eq_left (by norm_num)]

lemma one_le_rpow_of_one_le {x y : ℝ} (hx : 1 ≤ x) (hy : 0 ≤ y) :
    1 ≤ x ^ y := by
  calc (1 : ℝ) = 1 ^ y := (Real.one_rpow y).symm
  _ ≤ x ^ y := Real.rpow_le_rpow (by norm_num) hx hy

/-- C4: with the default rock parameters, `P80` equals
`clamp(A*k*(Eref/Eeff)^b * 1000, 10, 400)` for every positive effective
specific energy; `P50`/`P20` are the fixed `0.67`/`0.33` fractions of
`P80` for every input; `P80` is non-increasing in the effective specific
energy and always lies in `[10, 400]` mm. -/
theorem C4_fragmentation_model :
    (∀ E : ℝ, 0 < E →
      (evaluate_fragmentation (some E) none).P80 =
        max 10 (min 400 (5 * 1 * ((0.4 : ℝ) / E) ^ (0.8 : ℝ) * 1000))) ∧
    (∀ (m : Option ℝ) (rp : Option RockParams),
      (evaluate_fragmentation m rp).P50 =
          0.67 * (evaluate_fragmentation m rp).P80 ∧
      (evaluate_fragmentation m rp).P20 =
          0.33 * (evaluate_fragmentation m rp).P80) ∧
    (∀ E1 E2 : ℝ, E1 ≤ E2 →
      (evaluate_fragmentation (some E2) none).P80 ≤
        (evaluate_fragmentation (some E1) none).P80) ∧
    (∀ E : ℝ, 10 ≤ (evaluate_fragmentation (some E) none).P80 ∧
      (evaluate_fragmentation (some E) none).P80 ≤ 400) := by
  refine ⟨?_, ?_, ?_, ?_⟩
  · intro E hE
    rw [frag_P80_default]
    rcases le_or_lt 1e-3 E with h | h
    · rw [max_eq_left h]
    · rw [max_eq_right h.le]
      have h400 : (1 : ℝ) ≤ ((0.4 : ℝ) / 1e-3) ^ (0.8 : ℝ) := by
        apply one_le_rpow_of_one_le (by norm_num) (by norm_num)
      have hbig : (400 : ℝ) ≤ (0.4 : ℝ) / E := by
        rw [le_div_iff₀ hE]
        nlinarith
      have h400E : (1 : ℝ) ≤ ((0.4 : ℝ) / E) ^ (0.8 : ℝ) := by
        apply one_le_rpow_of_one_le (by nlinarith) (by norm_num)
      rw [min_eq_left (by nlinarith), min_eq_left (by nlinarith)]
  · intro m rp
    match m with
    | none => constructor <;> simp [evaluate_fragmentation]
    | some E =>
      constructor <;> · simp only [evaluate_fragmentation]; ring
  · intro E1 E2 h
    rw [frag_P80_default, frag_P80_default]
    have h1 : (0 : ℝ) < max E1 1e-3 := lt_max_of_lt_right (by norm_num)
    have h2 : max E1 1e-3 ≤ max E2 1e-3 := max_le_max h le_rfl
    have hdiv : (0.4 : ℝ) / max E2 1e-3 ≤ 0.4 / max E1 1e-3 :=
      div_le_div_of_nonneg_left (by norm_num) h1 h2
    have hpow : ((0.4 : ℝ) / max E2 1e-3) ^ (0.8 : ℝ) ≤
        ((0.4 : ℝ) / max E1 1e-3) ^ (0.8 : ℝ) :=
      Real.rpow_le_rpow (by positivity) hdiv (by norm_num)
    exact max_le_max le_rfl (min_le_min le_rfl (by nlinarith))
  · intro E
    rw [frag_P80_default]
    exact ⟨le_max_left _ _, max_le (by norm_num) (min_le_left _ _)⟩

/-- Witness for C4 at concrete energies `0.4` and `0.5` MJ/m3. -/
theorem C4_fragmentation_model_witness :
    0 < (0.4 : ℝ) ∧
    (evaluate_fragmentation (some 0.4) none).P80 =
      max 10 (min 400 (5 * 1 * ((0.4 : ℝ) / 0.4) ^ (0.8 : ℝ) * 1000)) ∧
    (0.4 : ℝ) ≤ 0.5 ∧
    (evaluate_fragmentation (some 0.5) none).P80 ≤
      (evaluate_fragmentation (some 0.4) none).P80 :=
  ⟨by norm_num, C4_fragmentation_model.1 0.4 (by norm_num), by norm_num,
    C4_fragmentation_model.2.2.1 0.4 0.5 (by norm_num)⟩

-- ======================================================================
-- C7: zero-division guards
-- ======================================================================

lemma timingRows_charge (step row_ms M_por : ℝ) :
    ∀ (l : List Pt) (i fila : ℕ) (fy : Option ℝ),
      ∀ t ∈ timingRows step row_ms M_por l i fila fy, t.charge_kg = M_por := by
  intro l
  induction l with
  | nil => intro i fila fy t ht; simp [timingRows] at ht
  | cons p rest ih =>
    intro i fila fy t ht
    simp only [timingRows, List.mem_cons] at ht
    rcases ht with rfl | ht
    · rfl
    · exact ih _ _ _ t ht

/-- C7: the ratio metrics of the evaluators are guarded against zero
denominators — empty charges give an all-zero energy record, a
non-positive blasted volume zeroes the specific energies and the cost per
cubic metre, a non-positive total cost zeroes the energy-per-dollar
ratio, empty charges give an empty timing with `Q_max = 0`, and each
timing entry's per-hole charge is the total mass divided by the hole
count (never a fault). -/
theorem C7_zero_division_guards :
    (∀ (u : UnitCosts) (S : ℝ) (b e : Option ℝ),
      evaluate_energy ([], []) u S b e = ⟨0, 0, 0, 0, 0⟩) ∧
    (∀ (c : List Pt × List Pt) (u : UnitCosts) (S : ℝ) (b e : Option ℝ),
      (evaluate_energy c u S b e).V_volado ≤ 0 →
      (evaluate_energy c u S b e).E_especifica = 0) ∧
    (∀ (d : Design) (u : UnitCosts),
      ((evaluate_ring d u).volumen ≤ 0 →
        (evaluate_ring d u).costo_por_m3 = 0 ∧
        (evaluate_ring d u).energia_especifica = 0 ∧
        (evaluate_ring d u).energia_especifica_efectiva = 0) ∧
      ((evaluate_ring d u).costo_total ≤ 0 →
        (evaluate_ring d u).energia_por_dolar = 0)) ∧
    (∀ (ed : EnergyData) (ds dr : Option ℝ),
      assign_timing ([], []) ed ds dr = ⟨[], 0⟩) ∧
    (∀ (c : List Pt × List Pt) (ed : EnergyData) (ds dr : Option ℝ),
      ∀ t ∈ (assign_timing c ed ds dr).timing,
        t.charge_kg = ed.M_total / c.1.length) := by
  refine ⟨?_, ?_, ?_, ?_, ?_⟩
  · intro u S b e
    simp [evaluate_energy]
  · intro c u S b e hV
    by_cases hg : c.1 = [] ∨ c.1.length ≠ c.2.length
    · simp [evaluate_energy, hg]
    · simp only [evaluate_energy, if_neg hg] at hV ⊢
      exact if_neg (not_lt.mpr hV)
  · intro d u
    constructor
    · intro hV
      simp only [evaluate_ring] at hV ⊢
      exact ⟨if_neg (not_lt.mpr hV), if_neg (not_lt.mpr hV),
        if_neg (not_lt.mpr hV)⟩
    · intro hC
      simp only [evaluate_ring] at hC ⊢
      exact if_neg (not_lt.mpr hC)
  · intro ed ds dr
    simp [assign_timing]
  · intro c ed ds dr t ht
    by_cases hc : c.1 = []
    · simp [assign_timing, hc] at ht
    · simp only [assign_timing, if_neg hc] at ht
      have := timingRows_charge (pyOr ds 25) (pyOr dr 50)
        (if 0 < c.1.length then ed.M_total / c.1.length else 0)
        (List.insertionSort lexLe c.1) 1 0 none t ht
      rw [this, if_pos (List.length_pos.mpr hc)]

/-- Witness for C7 at a concrete empty design. -/
theorem C7_zero_division_guards_witness :
    evaluate_energy ([], []) {} 1 none none = ⟨0, 0, 0, 0, 0⟩ ∧
    (evaluate_ring ⟨⟨[], [], {}⟩, ([], [])⟩ {}).costo_por_m3 = 0 ∧
    assign_timing ([], []) ⟨0, 0, 0, 0, 0⟩ none none = ⟨[], 0⟩ := by
  have h := C7_zero_division_guards
  refine ⟨h.1 {} 1 none none, ?_, h.2.2.2.1 ⟨0, 0, 0, 0, 0⟩ none none⟩
  have hV : (evaluate_ring ⟨⟨[], [], {}⟩, ([], [])⟩ {}).volumen ≤ 0 := by
    simp [evaluate_ring, total_drilled_length, geoTotalLen]
  exact ((h.2.2.1 _ _).1 hV).1

-- ======================================================================
-- C3: charge geometry
-- ======================================================================

/-- Length of the charge cut from a hole by a non-negative stemming
shorter than the hole. -/
lemma elen_interpolate (a b : Pt) (s : ℝ) (h0 : 0 ≤ s) (h1 : s < elen a b) :
    elen (interpolate a b s) b = elen a b - s := by
  have hL : 0 < elen a b := lt_of_le_of_lt h0 h1
  simp only [interpolate]
  rw [if_neg (ne_of_gt hL), if_neg (not_lt.mpr h0), min_eq_left h1.le,
    max_eq_right h0, elen_padd_smul_right,
    abs_of_nonneg (by rw [sub_nonneg]; exact div_le_one_of_le₀ h1.le hL.le)]
  field_simp

/-- Closed form of the charge-designer loop: the qualifying holes are
exactly those longer than the stemming, each contributing one charge. -/
lemma chargesLoop_eq (stemming : ℝ) (pairs : List (Pt × Pt)) :
    chargesLoop stemming pairs =
      ((pairs.filter fun h => decide (stemming < elen h.1 h.2)).map
          fun h => interpolate h.1 h.2 stemming,
        (pairs.filter fun h => decide (stemming < elen h.1 h.2)).map
          Prod.snd) := by
  induction pairs with
  | nil => simp [chargesLoop]
  | cons p rest ih =>
    obtain ⟨c, t⟩ := p
    simp only [chargesLoop, ih, List.filter_cons]
    by_cases h : stemming < elen c t
    · rw [if_pos h]
      simp [h]
    · rw [if_neg h]
      simp [h]

/-- C3 (amended): for every holes design and every non-negative stemming,
the charge designer emits exactly one charge per hole longer than the
stemming and none for the others; each charge ends at its hole's toe and
has length `length(hole) - stemming`.  (For a negative stemming the
`interpolate` call measures from the toe instead, see the
counterexample.) -/
theorem C3_charge_geometry (holes : FanDesign) (stemming : ℝ)
    (hs : 0 ≤ stemming) :
    List.Forall₂
      (fun (ch : Pt × Pt) (h : Pt × Pt) =>
        ch.2 = h.2 ∧ elen ch.1 ch.2 = elen h.1 h.2 - stemming)
      ((get_charges holes stemming).1.zip (get_charges holes stemming).2)
      ((holes.collars.zip holes.toes).filter
        fun h => decide (stemming < elen h.1 h.2)) := by
  rw [get_charges]
  by_cases hc : holes.collars = []
  · rw [if_pos hc]
    simp [hc]
  · rw [if_neg hc, chargesLoop_eq]
    simp only [List.zip_map']
    rw [List.forall₂_map_left_iff]
    rw [List.forall₂_same]
    intro h hmem
    have hq : stemming < elen h.1 h.2 := by
      have := List.of_mem_filter hmem
      simpa using this
    exact ⟨rfl, elen_interpolate h.1 h.2 stemming hs hq⟩

/-- Witness for C3 at a single 3 m vertical hole with 1 m stemming. -/
theorem C3_charge_geometry_witness :
    0 ≤ (1 : ℝ) ∧
    List.Forall₂
      (fun (ch : Pt × Pt) (h : Pt × Pt) =>
        ch.2 = h.2 ∧ elen ch.1 ch.2 = elen h.1 h.2 - 1)
      ((get_charges ⟨[(0, 0)], [(0, 3)], {}⟩ 1).1.zip
        (get_charges ⟨[(0, 0)], [(0, 3)], {}⟩ 1).2)
      ((([((0 : ℝ), (0 : ℝ))] : List Pt).zip ([((0 : ℝ), (3 : ℝ))] : List Pt)).filter
        fun h => decide ((1 : ℝ) < elen h.1 h.2)) :=
  ⟨by norm_num, C3_charge_geometry ⟨[(0, 0)], [(0, 3)], {}⟩ 1 (by norm_num)⟩

/-- C3 counterexample: with stemming `-1` on the hole from `(0,0)` to
`(0,2)`, the emitted charge runs from `(0,1)` to `(0,2)` — `interpolate`
measures negative distances from the toe — so its length is `1`, not
`length(hole) - stemming = 3`. -/
theorem C3_negative_stemming_counterexample :
    get_charges ⟨[(0, 0)], [(0, 2)], {}⟩ (-1) = ([(0, 1)], [(0, 2)]) ∧
    elen ((0 : ℝ), (1 : ℝ)) ((0 : ℝ), (2 : ℝ)) ≠
      elen ((0 : ℝ), (0 : ℝ)) ((0 : ℝ), (2 : ℝ)) - (-1) := by
  have h2 : elen ((0 : ℝ), (0 : ℝ)) ((0 : ℝ), (2 : ℝ)) = 2 :=
    elen_eval (by norm_num) (by norm_num [sqLen, psub])
  have h1 : elen ((0 : ℝ), (1 : ℝ)) ((0 : ℝ), (2 : ℝ)) = 1 :=
    elen_eval (by norm_num) (by norm_num [sqLen, psub])
  have hint : interpolate ((0 : ℝ), (0 : ℝ)) ((0 : ℝ), (2 : ℝ)) (-1) =
      ((0 : ℝ), (1 : ℝ)) := by
    simp only [interpolate, h2]
    rw [if_neg (by norm_num), if_pos (by norm_num)]
    norm_num [padd, psmul, psub]
  constructor
  · rw [get_charges, if_neg (by simp)]
    simp only [List.zip_cons_cons, List.zip_nil_right, chargesLoop]
    rw [if_pos (by rw [h2]; norm_num)]
    rw [hint]
  · rw [h1, h2]
    norm_num

-- ======================================================================
-- C6: timing designer
-- ======================================================================

/-- Total charge mass grouped on one exact (unrounded) delay value. -/
def delayGroupSumExact (entries : List TimingEntry) (k : ℝ) : ℝ :=
  (entries.map fun e => if e.delay_ms = k then e.charge_kg else 0).sum

/-- Stated from the claim's words: the maximum over distinct delay values
of the total charge mass sharing that delay (no rounding). -/
def QmaxSpec (entries : List TimingEntry) : ℝ :=
  maxOfList
    (((entries.map fun e => e.delay_ms).dedup).map (delayGroupSumExact entries))

/-- Row numbers along the sorted collars, as described by the claim: a new
row starts when the secondary coordinate jumps by more than 1 m from the
current row's reference. -/
def rowIndices : List ℝ → ℕ → Option ℝ → List ℕ
  | [], _, _ => []
  | y :: rest, fila, fy =>
    match fy with
    | none => fila :: rowIndices rest fila (some y)
    | some fyv =>
      if |y - fyv| > 1 then (fila + 1) :: rowIndices rest (fila + 1) (some y)
      else fila :: rowIndices rest fila (some fyv)

lemma timingRows_coords (step row_ms M_por : ℝ) :
    ∀ (l : List Pt) (i fila : ℕ) (fy : Option ℝ),
      (timingRows step row_ms M_por l i fila fy).map (fun e => e.coords) = l := by
  intro l
  induction l with
  | nil => intro i fila fy; simp [timingRows]
  | cons p rest ih =>
    intro i fila fy
    simp only [timingRows, List.map_cons, ih]

lemma timingRows_ids (step row_ms M_por : ℝ) :
    ∀ (l : List Pt) (i fila : ℕ) (fy : Option ℝ),
      (timingRows step row_ms M_por l i fila fy).map (fun e => e.id) =
        List.range' i l.length := by
  intro l
  induction l with
  | nil => intro i fila fy; simp [timingRows]
  | cons p rest ih =>
    intro i fila fy
    simp only [timingRows, List.map_cons, ih, List.length_cons, List.range']

lemma timingRows_charges_replicate (step row_ms M_por : ℝ) :
    ∀ (l : List Pt) (i fila : ℕ) (fy : Option ℝ),
      (timingRows step row_ms M_por l i fila fy).map (fun e => e.charge_kg) =
        List.replicate l.length M_por := by
  intro l
  induction l with
  | nil => intro i fila fy; simp [timingRows]
  | cons p rest ih =>
    intro i fila fy
    simp only [timingRows, List.map_cons, ih, List.length_cons,
      List.replicate_succ]

lemma timingRows_delays (step row_ms M_por : ℝ) :
    ∀ (l : List Pt) (i fila : ℕ) (fy : Option ℝ), 1 ≤ i →
      (timingRows step row_ms M_por l i fila fy).map (fun e => e.delay_ms) =
        List.zipWith (fun (r : ℕ) (j : ℕ) => (r : ℝ) * row_ms + (j : ℝ) * step)
          (rowIndices (l.map Prod.snd) fila fy) (List.range' (i - 1) l.length) := by
  intro l
  induction l with
  | nil => intro i fila fy hi; simp [timingRows, rowIndices]
  | cons p rest ih =>
    intro i fila fy hi
    have hcast : ((i : ℝ) - 1) = ((i - 1 : ℕ) : ℝ) := by
      push_cast [Nat.cast_sub hi]
      ring
    have htail : i + 1 - 1 = (i - 1) + 1 := by omega
    match fy with
    | none =>
      simp only [timingRows, List.map_cons, rowIndices, List.length_cons,
        List.range', List.zipWith]
      congr 1
      · rw [hcast]
      · rw [ih (i + 1) fila (some p.2) (by omega), htail]
    | some fyv =>
      by_cases hj : |p.2 - fyv| > 1
      · simp only [timingRows, List.map_cons, rowIndices, if_pos hj,
          List.length_cons, List.range', List.zipWith]
        congr 1
        · rw [hcast]
        · rw [ih (i + 1) (fila + 1) (some p.2) (by omega), htail]
      · simp only [timingRows, List.map_cons, rowIndices, if_neg hj,
          List.length_cons, List.range', List.zipWith]
        congr 1
        · rw [hcast]
        · rw [ih (i + 1) fila (some fyv) (by omega), htail]

lemma le_foldl_max (qs : List ℝ) : ∀ q : ℝ, q ≤ qs.foldl max q := by
  induction qs with
  | nil => intro q; exact le_refl q
  | cons a l ih =>
    intro q
    exact le_trans (le_max_left q a) (ih (max q a))

lemma mem_le_foldl_max (qs : List ℝ) :
    ∀ (q x : ℝ), x ∈ qs → x ≤ qs.foldl max q := by
  induction qs with
  | nil => intro q x hx; simp at hx
  | cons a l ih =>
    intro q x hx
    rcases List.mem_cons.mp hx with rfl | hx
    · exact le_trans (le_max_right q x) (le_foldl_max l _)
    · exact ih _ x hx

lemma foldl_max_mem (qs : List ℝ) :
    ∀ q : ℝ, qs.foldl max q = q ∨ qs.foldl max q ∈ qs := by
  induction qs with
  | nil => intro q; exact Or.inl rfl
  | cons a l ih =>
    intro q
    rcases ih (max q a) with h | h
    · rcases max_cases q a with ⟨he, _⟩ | ⟨he, _⟩
      · exact Or.inl (by rw [List.foldl_cons, h, he])
      · exact Or.inr (by rw [List.foldl_cons, h, he]; exact List.mem_cons_self a l)
    · exact Or.inr (List.mem_cons_of_mem a h)

lemma maxOfList_ge {l : List ℝ} {x : ℝ} (hx : x ∈ l) : x ≤ maxOfList l := by
  match l with
  | [] => simp at hx
  | q :: qs =>
    rcases List.mem_cons.mp hx with rfl | hx
    · exact le_foldl_max qs x
    · exact mem_le_foldl_max qs q x hx

lemma maxOfList_mem {l : List ℝ} (h : l ≠ []) : maxOfList l ∈ l := by
  match l with
  | [] => exact absurd rfl h
  | q :: qs =>
    rcases foldl_max_mem qs q with h2 | h2
    · rw [maxOfList, h2]; exact List.mem_cons_self q qs
    · exact List.mem_cons_of_mem q h2

/-- C6 (amended): for every non-empty charge set the timing designer gives
each hole `chargeKg = M/n` (so they sum to `M`); the holes are processed
in stable lexicographic collar order (primary axis, then secondary); a new
row starts when the secondary coordinate jumps by more than 1 m from the
current row's reference; the i-th hole gets
`delay = row*delayRow + (i-1)*delayStep`; and `Q_max` is the maximum over
the distinct delay keys of the per-key mass sums, the keys being the
delays rounded to one decimal (rounding can merge distinct delays, see
the counterexample). -/
theorem C6_timing_assignment (charges : List Pt × List Pt)
    (ed : EnergyData) (ds dr : Option ℝ) (hne : charges.1 ≠ []) :
    ((assign_timing charges ed ds dr).timing.map fun e => e.charge_kg) =
        List.replicate charges.1.length (ed.M_total / charges.1.length) ∧
    ((assign_timing charges ed ds dr).timing.map fun e => e.charge_kg).sum
        = ed.M_total ∧
    ((assign_timing charges ed ds dr).timing.map fun e => e.coords) =
        List.insertionSort lexLe charges.1 ∧
    List.Sorted lexLe
      ((assign_timing charges ed ds dr).timing.map fun e => e.coords) ∧
    List.Perm ((assign_timing charges ed ds dr).timing.map fun e => e.coords)
      charges.1 ∧
    ((assign_timing charges ed ds dr).timing.map fun e => e.id) =
        List.range' 1 charges.1.length ∧
    ((assign_timing charges ed ds dr).timing.map fun e => e.delay_ms) =
        List.zipWith
          (fun (r : ℕ) (j : ℕ) => (r : ℝ) * pyOr dr 50 + (j : ℝ) * pyOr ds 25)
          (rowIndices ((List.insertionSort lexLe charges.1).map Prod.snd) 0 none)
          (List.range charges.1.length) ∧
    (∀ k ∈ ((assign_timing charges ed ds dr).timing.map
        fun e => pyRound1 e.delay_ms).dedup,
      delayGroupSum (assign_timing charges ed ds dr).timing k ≤
        (assign_timing charges ed ds dr).Q_max) ∧
    (∃ k ∈ ((assign_timing charges ed ds dr).timing.map
        fun e => pyRound1 e.delay_ms).dedup,
      delayGroupSum (assign_timing charges ed ds dr).timing k =
        (assign_timing charges ed ds dr).Q_max) := by
  have hn : 0 < charges.1.length := List.length_pos.mpr hne
  have hlen : (List.insertionSort lexLe charges.1).length = charges.1.length :=
    (List.perm_insertionSort lexLe charges.1).length_eq
  simp only [assign_timing, if_neg hne, if_pos hn]
  set M_por := ed.M_total / charges.1.length with hM
  set entries := timingRows (pyOr ds 25) (pyOr dr 50) M_por
    (List.insertionSort lexLe charges.1) 1 0 none with he
  have hch : entries.map (fun e => e.charge_kg) =
      List.replicate charges.1.length M_por := by
    rw [he, timingRows_charges_replicate, hlen]
  have hco : entries.map (fun e => e.coords) =
      List.insertionSort lexLe charges.1 := by
    rw [he, timingRows_coords]
  have hen : entries ≠ [] := by
    intro h0
    have := congrArg List.length hco
    rw [h0, hlen] at this
    simp at this
    omega
  refine ⟨hch, ?_, hco, ?_, ?_, ?_, ?_, ?_, ?_⟩
  · rw [hch, List.sum_replicate, nsmul_eq_mul, hM,
      mul_div_cancel₀ _ (by exact_mod_cast hn.ne')]
  · rw [hco]; exact List.sorted_insertionSort lexLe charges.1
  · rw [hco]; exact List.perm_insertionSort lexLe charges.1
  · rw [he, timingRows_ids, hlen]
  · rw [he, timingRows_delays _ _ _ _ _ _ _ le_rfl, hlen,
      ← List.range_eq_range']
  · intro k hk
    apply maxOfList_ge
    exact List.mem_map_of_mem _ (by simpa using hk)
  · have hkeys : ((entries.map fun e => pyRound1 e.delay_ms).dedup).map
        (delayGroupSum entries) ≠ [] := by
      simp [List.dedup_eq_nil, hen]
    obtain ⟨k, hk, hkeq⟩ := List.mem_map.mp (maxOfList_mem hkeys)
    exact ⟨k, hk, hkeq⟩

/-- Witness for C6 on two concrete charges with total mass 6. -/
theorem C6_timing_assignment_witness :
    ([((0 : ℝ), (0 : ℝ)), ((0 : ℝ), (1 : ℝ))] : List Pt) ≠ [] ∧
    ((assign_timing ([((0 : ℝ), (0 : ℝ)), ((0 : ℝ), (1 : ℝ))], [])
        ⟨6, 0, 0, 0, 0⟩ none none).timing.map fun e => e.charge_kg).sum = 6 := by
  have h := C6_timing_assignment ([((0 : ℝ), (0 : ℝ)), ((0 : ℝ), (1 : ℝ))], [])
    ⟨6, 0, 0, 0, 0⟩ none none (by simp)
  exact ⟨by simp, h.2.1⟩

lemma pyRound1_lt_half {x : ℝ} (f : ℤ) (hf : ⌊10 * x⌋ = f)
    (hr : 10 * x - f < 1 / 2) : pyRound1 x = f / 10 := by
  simp only [pyRound1]
  rw [hf, if_pos hr]

lemma pyRound1_zero : pyRound1 0 = 0 := by
  have h := pyRound1_lt_half (x := 0) 0 (by norm_num) (by norm_num)
  simpa using h

lemma pyRound1_one_div_25 : pyRound1 (1 / 25) = 0 := by
  have hf : ⌊(10 : ℝ) * (1 / 25)⌋ = 0 := by
    rw [show (10 : ℝ) * (1 / 25) = 2 / 5 by norm_num, Int.floor_eq_zero_iff]
    constructor <;> norm_num
  have h := pyRound1_lt_half (x := 1 / 25) 0 hf (by norm_num)
  simpa using h

/-- Unfolding of `assign_timing` on a non-empty charge set. -/
lemma assign_timing_eq (charges : List Pt × List Pt) (ed : EnergyData)
    (ds dr : Option ℝ) (hne : charges.1 ≠ []) :
    assign_timing charges ed ds dr =
      ⟨timingRows (pyOr ds 25) (pyOr dr 50) (ed.M_total / charges.1.length)
        (List.insertionSort lexLe charges.1) 1 0 none,
       maxOfList (((timingRows (pyOr ds 25) (pyOr dr 50)
          (ed.M_total / charges.1.length)
          (List.insertionSort lexLe charges.1) 1 0 none).map
            fun e => pyRound1 e.delay_ms).dedup.map
          (delayGroupSum (timingRows (pyOr ds 25) (pyOr dr 50)
            (ed.M_total / charges.1.length)
            (List.insertionSort lexLe charges.1) 1 0 none)))⟩ := by
  simp only [assign_timing, if_neg hne, if_pos (List.length_pos.mpr hne)]

/-- C6 counterexample: with `delayStep = 0.04 ms` on two collars in one
row, the delays are `0` and `0.04`; the code groups them after
`round(delay, 1)`, merging both into the key `0`, so `Q_max = 2` (the
whole mass), while the claim's maximum over distinct (unrounded) delay
values is `1`. -/
theorem C6_qmax_rounding_counterexample :
    (assign_timing ([(0, 0), (0, 1 / 2)], [(0, 1), (0, 1)])
        ⟨2, 0, 0, 0, 0⟩ (some (1 / 25)) none).Q_max = 2 ∧
    QmaxSpec (assign_timing ([(0, 0), (0, 1 / 2)], [(0, 1), (0, 1)])
        ⟨2, 0, 0, 0, 0⟩ (some (1 / 25)) none).timing = 1 ∧
    (2 : ℝ) ≠ 1 := by
  have hstep : pyOr (some ((1 : ℝ) / 25)) 25 = 1 / 25 := by
    simp only [pyOr]
    rw [if_neg (by norm_num)]
  have hrow : pyOr (none : Option ℝ) 50 = 50 := rfl
  have hsort : List.insertionSort lexLe
      [((0 : ℝ), (0 : ℝ)), ((0 : ℝ), (1 / 2 : ℝ))] =
      [((0 : ℝ), (0 : ℝ)), ((0 : ℝ), (1 / 2 : ℝ))] := by
    simp only [List.insertionSort, List.orderedInsert]
    rw [if_pos (show lexLe ((0 : ℝ), (0 : ℝ)) ((0 : ℝ), (1 / 2 : ℝ)) from
      Or.inr ⟨rfl, by norm_num⟩)]
  have hnotjump : ¬ |(1 / 2 : ℝ) - 0| > 1 := by
    rw [not_lt, show ((1 : ℝ) / 2 - 0) = 1 / 2 by norm_num,
      abs_of_nonneg (by norm_num : (0 : ℝ) ≤ 1 / 2)]
    norm_num
  have hrows : timingRows (1 / 25) 50 1
      [((0 : ℝ), (0 : ℝ)), ((0 : ℝ), (1 / 2 : ℝ))] 1 0 none =
      [⟨1, ((0 : ℝ), (0 : ℝ)), 0, 1⟩,
       ⟨2, ((0 : ℝ), (1 / 2 : ℝ)), 1 / 25, 1⟩] := by
    simp only [timingRows]
    rw [if_neg hnotjump]
    norm_num [TimingEntry.mk.injEq]
  have hM : (⟨2, 0, 0, 0, 0⟩ : EnergyData).M_total /
      (([((0 : ℝ), (0 : ℝ)), ((0 : ℝ), (1 / 2 : ℝ))] : List Pt).length : ℝ)
        = 1 := by
    show (2 : ℝ) / (2 : ℕ) = 1
    norm_num
  have hfull := assign_timing_eq ([(0, 0), (0, 1 / 2)], [(0, 1), (0, 1)])
    ⟨2, 0, 0, 0, 0⟩ (some (1 / 25)) none (by simp)
  rw [hstep, hrow, hsort, hM, hrows] at hfull
  refine ⟨?_, ?_, by norm_num⟩
  · rw [hfull]
    simp only [List.map_cons, List.map_nil, pyRound1_zero, pyRound1_one_div_25]
    rw [List.dedup_cons_of_mem (by simp), List.dedup_cons_of_not_mem (by simp),
      List.dedup_nil]
    simp only [List.map_cons, List.map_nil, delayGroupSum, maxOfList,
      List.foldl_nil, pyRound1_zero, pyRound1_one_div_25]
    norm_num
  · rw [hfull, QmaxSpec]
    simp only [List.map_cons, List.map_nil]
    rw [List.dedup_cons_of_not_mem (by norm_num),
      List.dedup_cons_of_not_mem (by simp), List.dedup_nil]
    simp only [List.map_cons, List.map_nil, delayGroupSumExact, maxOfList,
      List.foldl_cons, List.foldl_nil]
    norm_num

-- ======================================================================
-- C10: polygon repair
-- ======================================================================

/-- Transversal segment intersection: when the directions are independent
and both normalised parameters lie in `[0, 1]`, the intersection is the
single point `P`. -/
lemma segInt_point_of (s1 s2 : Seg) (t u : ℝ) (P : Pt)
    (hden : cross2 (lineVec s1) (lineVec s2) ≠ 0)
    (ht : cross2 (psub s2.1 s1.1) (lineVec s2) =
      t * cross2 (lineVec s1) (lineVec s2))
    (hu : cross2 (psub s2.1 s1.1) (lineVec s1) =
      u * cross2 (lineVec s1) (lineVec s2))
    (ht0 : 0 ≤ t) (ht1 : t ≤ 1) (hu0 : 0 ≤ u) (hu1 : u ≤ 1)
    (hP : padd s1.1 (psmul t (lineVec s1)) = P) :
    segInt s1 s2 = .point P := by
  simp only [segInt]
  rw [if_pos hden]
  have htt : cross2 (psub s2.1 s1.1) (lineVec s2) /
      cross2 (lineVec s1) (lineVec s2) = t := by
    rw [ht, mul_div_assoc, div_self hden, mul_one]
  have huu : cross2 (psub s2.1 s1.1) (lineVec s1) /
      cross2 (lineVec s1) (lineVec s2) = u := by
    rw [hu, mul_div_assoc, div_self hden, mul_one]
  rw [htt, huu, if_pos ⟨ht0, ht1, hu0, hu1⟩, hP]

/-- Parallel but non-collinear segments do not intersect. -/
lemma segInt_empty_parallel (s1 s2 : Seg)
    (hden : cross2 (lineVec s1) (lineVec s2) = 0)
    (hnc : cross2 (psub s2.1 s1.1) (lineVec s1) ≠ 0) :
    segInt s1 s2 = .empty := by
  simp only [segInt]
  rw [if_neg (not_not_intro hden), if_neg (fun hcon => hnc hcon.1)]

lemma rect_edges (x0 y0 x1 y1 : ℝ) :
    ringEdges (rectRing x0 y0 x1 y1) =
      [((x0, y0), (x1, y0)), ((x1, y0), (x1, y1)),
       ((x1, y1), (x0, y1)), ((x0, y1), (x0, y0))] := by
  simp [ringEdges, rectRing]

lemma rect_simple (x0 y0 x1 y1 : ℝ) (hx : x0 < x1) (hy : y0 < y1) :
    ringSimpleOK (rectRing x0 y0 x1 y1) := by
  have hw : x1 - x0 ≠ 0 := sub_ne_zero.mpr hx.ne'
  have hh : y1 - y0 ≠ 0 := sub_ne_zero.mpr hy.ne'
  have hwh : (x1 - x0) * (y1 - y0) ≠ 0 := mul_ne_zero hw hh
  intro i j hij ei ej hei hej
  have hj4 : j < 4 := by
    by_contra hcon
    rw [rect_edges, List.getElem?_eq_none (by simpa using not_lt.mp hcon)] at hej
    exact Option.noConfusion hej
  rw [rect_edges] at hei hej
  interval_cases j
  · omega
  · interval_cases i
    simp only [List.getElem?_cons_zero, List.getElem?_cons_succ,
      Option.some.injEq] at hei hej
    subst hei
    subst hej
    rw [segInt_point_of _ _ 1 0 (x1, y0)
      (by simp only [cross2, lineVec, psub]
          intro hcon; apply hwh; linear_combination hcon)
      (by simp only [cross2, lineVec, psub]; ring)
      (by simp only [cross2, lineVec, psub]; ring)
      (by norm_num) (by norm_num) (by norm_num) (by norm_num)
      (by simp only [padd, psmul, lineVec, psub, Prod.mk.injEq]
          constructor <;> ring)]
    exact ⟨Or.inr rfl, Or.inl rfl⟩
  · interval_cases i
    · simp only [List.getElem?_cons_zero, List.getElem?_cons_succ,
        Option.some.injEq] at hei hej
      subst hei
      subst hej
      rw [segInt_empty_parallel _ _
        (by simp only [cross2, lineVec, psub]; ring)
        (by simp only [cross2, lineVec, psub]
            intro hcon; apply hwh; linear_combination -hcon)]
      trivial
    · simp only [List.getElem?_cons_zero, List.getElem?_cons_succ,
        Option.some.injEq] at hei hej
      subst hei
      subst hej
      rw [segInt_point_of _ _ 1 0 (x1, y1)
        (by simp only [cross2, lineVec, psub]
            intro hcon; apply hwh; linear_combination hcon)
        (by simp only [cross2, lineVec, psub]; ring)
        (by simp only [cross2, lineVec, psub]; ring)
        (by norm_num) (by norm_num) (by norm_num) (by norm_num)
        (by simp only [padd, psmul, lineVec, psub, Prod.mk.injEq]
            constructor <;> ring)]
      exact ⟨Or.inr rfl, Or.inl rfl⟩
  · interval_cases i
    · simp only [List.getElem?_cons_zero, List.getElem?_cons_succ,
        Option.some.injEq] at hei hej
      subst hei
      subst hej
      rw [segInt_point_of _ _ 0 1 (x0, y0)
        (by simp only [cross2, lineVec, psub]
            intro hcon; apply hwh; linear_combination -hcon)
        (by simp only [cross2, lineVec, psub]; ring)
        (by simp only [cross2, lineVec, psub]; ring)
        (by norm_num) (by norm_num) (by norm_num) (by norm_num)
        (by simp only [padd, psmul, lineVec, psub, Prod.mk.injEq]
            constructor <;> ring)]
      exact ⟨Or.inl rfl, Or.inr rfl⟩
    · simp only [List.getElem?_cons_zero, List.getElem?_cons_succ,
        Option.some.injEq] at hei hej
      subst hei
      subst hej
      rw [segInt_empty_parallel _ _
        (by simp only [cross2, lineVec, psub]; ring)
        (by simp only [cross2, lineVec, psub]
            intro hcon; apply hwh; linear_combination -hcon)]
      trivial
    · simp only [List.getElem?_cons_zero, List.getElem?_cons_succ,
        Option.some.injEq] at hei hej
      subst hei
      subst hej
      rw [segInt_point_of _ _ 1 0 (x0, y1)
        (by simp only [cross2, lineVec, psub]
            intro hcon; apply hwh; linear_combination hcon)
        (by simp only [cross2, lineVec, psub]; ring)
        (by simp only [cross2, lineVec, psub]; ring)
        (by norm_num) (by norm_num) (by norm_num) (by norm_num)
        (by simp only [padd, psmul, lineVec, psub, Prod.mk.injEq]
            constructor <;> ring)]
      exact ⟨Or.inr rfl, Or.inl rfl⟩

lemma rect_valid (x0 y0 x1 y1 : ℝ) (hx : x0 < x1) (hy : y0 < y1) :
    ringValid (rectRing x0 y0 x1 y1) := by
  refine ⟨by simp [rectRing], ?_, rect_simple x0 y0 x1 y1 hx hy⟩
  have harea : ringArea2 (rectRing x0 y0 x1 y1) =
      2 * ((x1 - x0) * (y1 - y0)) := by
    simp [ringArea2, rect_edges, cross2]
    ring
  rw [harea]
  have : (x1 - x0) * (y1 - y0) ≠ 0 :=
    mul_ne_zero (sub_ne_zero.mpr hx.ne') (sub_ne_zero.mpr hy.ne')
  intro hcon
  exact this (by linarith)

lemma degenerate_point_rect_invalid :
    ¬ ringValid [((2 : ℝ), (3 : ℝ)), (2, 3), (2, 3), (2, 3)] := by
  intro h
  apply h.2.1
  simp [ringArea2, ringEdges, cross2]
  norm_num

lemma fix_polygon_short (buffer0 : List Pt → Option (List Pt))
    (coords : List Pt) (h : coords.length < 3) :
    _fix_polygon buffer0 coords = boundingRect coords := by
  have h3 : ¬ 3 ≤ coords.length := by omega
  simp only [_fix_polygon, if_neg h3]
  rw [if_neg (fun hcon => h3 hcon.2)]
  rfl

lemma fix_polygon_nil (buffer0 : List Pt → Option (List Pt)) :
    _fix_polygon buffer0 [] = rectRing 0 0 1 1 := by
  rw [fix_polygon_short buffer0 [] (by simp)]
  simp [boundingRect]

lemma fixFinish_valid_or_rect (coords : List Pt) (p2 : Option (List Pt)) :
    ringValid (fixFinish coords p2) ∨
      fixFinish coords p2 = boundingRect coords := by
  match p2 with
  | none => exact Or.inr rfl
  | some r =>
    by_cases h : ringValid r
    · left
      simp only [fixFinish]
      rw [if_pos h]
      exact h
    · right
      simp only [fixFinish]
      rw [if_neg h]

/-- C10 (amended): the polygon repair is total and falls back to the
axis-aligned bounding rectangle (the unit square, a valid ring, for an
empty input); its result is either a valid ring or that bounding
rectangle.  A bounding rectangle with positive extent in both axes is a
valid ring, but degenerate inputs (collinear or fewer than two distinct
points) produce a zero-extent rectangle that is not a valid polygon, and
`DrillFanGenerator` construction receives it unchanged (see the
counterexample). -/
theorem C10_polygon_repair (buffer0 : List Pt → Option (List Pt))
    (coords : List Pt) :
    (ringValid (_fix_polygon buffer0 coords) ∨
      _fix_polygon buffer0 coords = boundingRect coords) ∧
    (coords = [] → _fix_polygon buffer0 coords = rectRing 0 0 1 1 ∧
      ringValid (_fix_polygon buffer0 coords)) ∧
    (coords.length < 3 → _fix_polygon buffer0 coords = boundingRect coords) ∧
    (∀ x0 y0 x1 y1 : ℝ, x0 < x1 → y0 < y1 →
      ringValid (rectRing x0 y0 x1 y1)) ∧
    (∀ (dg : List Pt) (pv : Pt),
      (mkGenerator buffer0 coords dg pv).stope = _fix_polygon buffer0 coords ∧
      (mkGenerator buffer0 dg coords pv).drift = _fix_polygon buffer0 coords) := by
  refine ⟨fixFinish_valid_or_rect coords _, ?_, fix_polygon_short buffer0 coords,
    rect_valid, fun dg pv => ⟨rfl, rfl⟩⟩
  intro h
  subst h
  rw [fix_polygon_nil]
  exact ⟨rfl, rect_valid 0 0 1 1 (by norm_num) (by norm_num)⟩

/-- Witness for C10 on the empty coordinate list. -/
theorem C10_polygon_repair_witness :
    _fix_polygon (fun _ => none) ([] : List Pt) = rectRing 0 0 1 1 ∧
    ringValid (_fix_polygon (fun _ => none) ([] : List Pt)) ∧
    ([] : List Pt).length < 3 ∧
    _fix_polygon (fun _ => none) ([] : List Pt) = boundingRect [] :=
  ⟨((C10_polygon_repair (fun _ => none) []).2.1 rfl).1,
   ((C10_polygon_repair (fun _ => none) []).2.1 rfl).2,
   by norm_num,
   (C10_polygon_repair (fun _ => none) []).2.2.1 (by norm_num)⟩

/-- C10 counterexample: the single-point input `[(2,3)]` cannot be built
into a polygon, skips the `buffer(0)` repair, and falls back to a
zero-extent bounding rectangle, which is not a valid polygon; the
generator's stope is exactly that degenerate ring. -/
theorem C10_degenerate_counterexample :
    _fix_polygon (fun _ => none) [((2 : ℝ), (3 : ℝ))] =
      [((2 : ℝ), (3 : ℝ)), (2, 3), (2, 3), (2, 3)] ∧
    ¬ ringValid [((2 : ℝ), (3 : ℝ)), (2, 3), (2, 3), (2, 3)] ∧
    (mkGenerator (fun _ => none) [((2 : ℝ), (3 : ℝ))] [((2 : ℝ), (3 : ℝ))]
        (0, 0)).stope = [((2 : ℝ), (3 : ℝ)), (2, 3), (2, 3), (2, 3)] := by
  have h1 : _fix_polygon (fun _ => none) [((2 : ℝ), (3 : ℝ))] =
      [((2 : ℝ), (3 : ℝ)), (2, 3), (2, 3), (2, 3)] := by
    rw [fix_polygon_short _ _ (by simp)]
    simp [boundingRect, rectRing]
  exact ⟨h1, degenerate_point_rect_invalid, h1⟩

-- ======================================================================
-- C5: aeci effective spacing / no retry
-- ======================================================================

/-- Repair leaves a valid polygon with at least three vertices
unchanged. -/
lemma fix_polygon_of_valid (buffer0 : List Pt → Option (List Pt))
    (coords : List Pt) (h : ringValid coords) :
    _fix_polygon buffer0 coords = coords := by
  have h3 : 3 ≤ coords.length := h.1
  simp only [_fix_polygon, if_pos h3]
  rw [if_neg (fun hcon => by
    rcases hcon.1 with h0 | hall
    · exact Option.noConfusion h0
    · exact hall coords rfl h)]
  simp only [fixFinish]
  rw [if_pos h]

/-- C5 (amended): the effective spacing used by the aeci generator to
build its parallel offsets never exceeds 90 % of `max 1e-6 d`, where `d`
is the smaller dimension of the stope's bounding box (so `0.9 * d` itself
only once `d ≥ 1e-6`); the generator runs a single pass with this fixed
effective spacing — there is no spacing-reduction retry in the code. -/
theorem C5_aeci_effective_spacing (spacing : ℝ) (stope : List Pt) :
    aeciEffSpacing spacing stope ≤ 0.9 * max 1e-6 (smallerBBoxDim stope) ∧
    (1e-6 ≤ smallerBBoxDim stope →
      aeciEffSpacing spacing stope ≤ 0.9 * smallerBBoxDim stope) ∧
    (∀ (G : Generator) (p : FanParams),
      generate_aeci G p =
        (aeciLoop G (aeciEffSpacing (p.spacing.getD 1) G.stope) p.min_angle
          p.max_angle p.max_length p.min_length
          (if p.max_angle > p.min_angle then .left else .right)
          (G.pivot, (G.pivot.1, G.pivot.2 + 10000)) 400
          (rotateLine p.min_angle G.pivot
            (G.pivot, (G.pivot.1, G.pivot.2 + 10000)))).map
          fun ls => ⟨ls.1, ls.2, p⟩) := by
  have hcap : aeciEffSpacing spacing stope ≤
      0.9 * max 1e-6 (smallerBBoxDim stope) := by
    rw [aeciEffSpacing]
    split_ifs with h
    · exact le_trans (min_le_right _ _) (le_of_eq rfl)
    · apply mul_nonneg (by norm_num)
      exact le_trans (by norm_num) (le_max_left _ _)
  refine ⟨hcap, ?_, fun G p => rfl⟩
  intro hd
  rw [show (0.9 : ℝ) * smallerBBoxDim stope =
      0.9 * max 1e-6 (smallerBBoxDim stope) by rw [max_eq_right hd]]
  exact hcap

/-- Witness for C5 on the unit-square stope. -/
theorem C5_aeci_effective_spacing_witness :
    1e-6 ≤ smallerBBoxDim (rectRing 0 0 1 1) ∧
    aeciEffSpacing 5 (rectRing 0 0 1 1) ≤
      0.9 * smallerBBoxDim (rectRing 0 0 1 1) := by
  have hdim : smallerBBoxDim (rectRing 0 0 1 1) = 1 := by
    norm_num [smallerBBoxDim, ringBounds, rectRing, List.min?, List.max?]
  constructor
  · rw [hdim]; norm_num
  · exact (C5_aeci_effective_spacing 5 (rectRing 0 0 1 1)).2.1
      (by rw [hdim]; norm_num)

/-- The sliver triangle used in the C5 counterexample: its bounding box is
`10` wide but only `1e-7` high, yet it is a perfectly valid polygon. -/
def sliverStope : List Pt := [(0, 0), (10, 0), (10, 1 / 10000000)]

lemma sliver_simple : ringSimpleOK sliverStope := by
  intro i j hij ei ej hei hej
  have hj3 : j < 3 := by
    by_contra hcon
    rw [show ringEdges sliverStope =
        [(((0 : ℝ), (0 : ℝ)), ((10 : ℝ), (0 : ℝ))),
         (((10 : ℝ), (0 : ℝ)), ((10 : ℝ), (1 / 10000000 : ℝ))),
         (((10 : ℝ), (1 / 10000000 : ℝ)), ((0 : ℝ), (0 : ℝ)))]
        by simp [ringEdges, sliverStope],
      List.getElem?_eq_none (by simpa using not_lt.mp hcon)] at hej
    exact Option.noConfusion hej
  rw [show ringEdges sliverStope =
      [(((0 : ℝ), (0 : ℝ)), ((10 : ℝ), (0 : ℝ))),
       (((10 : ℝ), (0 : ℝ)), ((10 : ℝ), (1 / 10000000 : ℝ))),
       (((10 : ℝ), (1 / 10000000 : ℝ)), ((0 : ℝ), (0 : ℝ)))]
      by simp [ringEdges, sliverStope]] at hei hej
  interval_cases j
  · omega
  · interval_cases i
    simp only [List.getElem?_cons_zero, List.getElem?_cons_succ,
      Option.some.injEq] at hei hej
    subst hei
    subst hej
    rw [segInt_point_of _ _ 1 0 ((10 : ℝ), (0 : ℝ))
      (by norm_num [cross2, lineVec, psub])
      (by norm_num [cross2, lineVec, psub])
      (by norm_num [cross2, lineVec, psub])
      (by norm_num) (by norm_num) (by norm_num) (by norm_num)
      (by norm_num [padd, psmul, lineVec, psub, Prod.mk.injEq])]
    exact ⟨Or.inr rfl, Or.inl rfl⟩
  · interval_cases i
    · simp only [List.getElem?_cons_zero, List.getElem?_cons_succ,
        Option.some.injEq] at hei hej
      subst hei
      subst hej
      rw [segInt_point_of _ _ 0 1 ((0 : ℝ), (0 : ℝ))
        (by norm_num [cross2, lineVec, psub])
        (by norm_num [cross2, lineVec, psub])
        (by norm_num [cross2, lineVec, psub])
        (by norm_num) (by norm_num) (by norm_num) (by norm_num)
        (by norm_num [padd, psmul, lineVec, psub, Prod.mk.injEq])]
      exact ⟨Or.inl rfl, Or.inr rfl⟩
    · simp only [List.getElem?_cons_zero, List.getElem?_cons_succ,
        Option.some.injEq] at hei hej
      subst hei
      subst hej
      rw [segInt_point_of _ _ 1 0 ((10 : ℝ), (1 / 10000000 : ℝ))
        (by norm_num [cross2, lineVec, psub])
        (by norm_num [cross2, lineVec, psub])
        (by norm_num [cross2, lineVec, psub])
        (by norm_num) (by norm_num) (by norm_num) (by norm_num)
        (by norm_num [padd, psmul, lineVec, psub, Prod.mk.injEq])]
      exact ⟨Or.inr rfl, Or.inl rfl⟩

lemma sliver_valid : ringValid sliverStope := by
  refine ⟨by simp [sliverStope], ?_, sliver_simple⟩
  norm_num [ringArea2, ringEdges, sliverStope, cross2]

/-- C5 counterexample: on the (valid, repair-invariant) sliver stope the
smaller bounding-box dimension is `1e-7`, below the `1e-6` floor, so the
cap is `0.9e-6` and a requested spacing of `1e-7` passes through as the
effective spacing even though it exceeds 90 % of the smaller dimension. -/
theorem C5_spacing_cap_counterexample :
    _fix_polygon (fun _ => none) sliverStope = sliverStope ∧
    0.9 * smallerBBoxDim sliverStope < aeciEffSpacing (1 / 10000000) sliverStope := by
  refine ⟨fix_polygon_of_valid _ _ sliver_valid, ?_⟩
  have hdim : smallerBBoxDim sliverStope = 1 / 10000000 := by
    simp [smallerBBoxDim, ringBounds, sliverStope, List.min?, List.max?]
    norm_num
  have heff : aeciEffSpacing (1 / 10000000) sliverStope = 1 / 10000000 := by
    rw [aeciEffSpacing, if_pos (by norm_num), aeciSpacingCap, hdim]
    rw [max_eq_left (by norm_num)]
    rw [min_eq_left (by norm_num)]
  rw [hdim, heff]
  norm_num

-- ======================================================================
-- C1: the optimizer sweep
-- ======================================================================

/-- Semantic feasibility of one swept value: the generator succeeds with a
non-empty hole set and the full evaluation's total cost is within
budget. -/
def FeasibleAt (deps : GenDeps) (cfg : OptConfig) (S : ℝ) : Prop :=
  ∃ holes, genAt deps cfg S = some holes ∧ holes.collars ≠ [] ∧
    (evalDesign cfg S holes).2.1.costo_total ≤ cfg.presupuesto_maximo

lemma stepTrial_none_iff (deps : GenDeps) (cfg : OptConfig) (S : ℝ) :
    stepTrial deps cfg S = none ↔ ¬ FeasibleAt deps cfg S := by
  cases hg : genAt deps cfg S with
  | none =>
    simp only [stepTrial, FeasibleAt, hg]
    simp
  | some holes =>
    simp only [stepTrial, FeasibleAt, hg]
    by_cases hc : holes.collars = []
    · simp [hc]
    · rw [if_neg hc]
      by_cases hcb :
          (evalDesign cfg S holes).2.1.costo_total ≤ cfg.presupuesto_maximo
      · rw [if_pos ⟨hcb, List.length_pos.mpr hc⟩]
        simp [hc, hcb]
      · rw [if_neg (fun hcon => hcb hcon.1)]
        simp [hcb]

lemma stepTrial_some (deps : GenDeps) (cfg : OptConfig) (S : ℝ) (t : Trial)
    (h : stepTrial deps cfg S = some t) :
    t.S = S ∧ t.cost ≤ cfg.presupuesto_maximo := by
  cases hg : genAt deps cfg S with
  | none =>
    simp only [stepTrial, hg] at h
    exact Option.noConfusion h
  | some holes =>
    simp only [stepTrial, hg] at h
    by_cases hc : holes.collars = []
    · rw [if_pos hc] at h
      exact Option.noConfusion h
    · rw [if_neg hc] at h
      split_ifs at h with hcb
      · cases h
        exact ⟨rfl, hcb.1⟩

lemma filterMap_map_sublist {α β : Type _} (f : α → Option β) (g : β → α)
    (hfg : ∀ a b, f a = some b → g b = a) :
    ∀ l : List α, ((l.filterMap f).map g).Sublist l := by
  intro l
  induction l with
  | nil => simp
  | cons a rest ih =>
    cases hf : f a with
    | none =>
      rw [List.filterMap_cons_none hf]
      exact ih.cons a
    | some b =>
      rw [List.filterMap_cons_some hf, List.map_cons, hfg a b hf]
      exact ih.cons₂ a

lemma sweep_pairwise (cfg : OptConfig) :
    (sweepValues cfg).Pairwise (· < ·) := by
  cases hm : cfg.design_method <;> simp only [sweepValues, hm] <;>
  · refine (List.pairwise_lt_range _).map _ ?_
    intro a b hab
    first
    | exact_mod_cast (by omega : (pyInt cfg.s_min + (a : ℤ) : ℤ) <
        pyInt cfg.s_min + (b : ℤ))
    | · have hab2 : (a : ℝ) < b := by exact_mod_cast hab
        nlinarith

lemma bestOf_spec (ts : List Trial) : ∀ t : Trial,
    bestOf t ts ∈ t :: ts ∧
    (∀ x ∈ t :: ts, (bestOf t ts).cost ≤ x.cost) ∧
    (bestOf t ts = t ∨ (bestOf t ts).cost < t.cost) ∧
    (List.Pairwise (fun a b : Trial => a.S < b.S) (t :: ts) →
      ∀ x ∈ t :: ts, x.cost = (bestOf t ts).cost → (bestOf t ts).S ≤ x.S) := by
  induction ts with
  | nil =>
    intro t
    refine ⟨by simp [bestOf], ?_, Or.inl rfl, ?_⟩
    · intro x hx
      rw [List.mem_singleton.mp hx]
      simp [bestOf]
    · intro _ x hx _
      rw [List.mem_singleton.mp hx]
      simp [bestOf]
  | cons a rest ih =>
    intro t
    have hstep : bestOf t (a :: rest) =
        bestOf (if a.cost < t.cost then a else t) rest := rfl
    by_cases ha : a.cost < t.cost
    · rw [if_pos ha] at hstep
      obtain ⟨m, le, eqlt, tie⟩ := ih a
      rw [hstep]
      refine ⟨List.mem_cons_of_mem t m, ?_, ?_, ?_⟩
      · intro x hx
        rcases List.mem_cons.mp hx with rfl | hx
        · exact le_of_lt (lt_of_le_of_lt (le a (List.mem_cons_self a rest)) ha)
        · exact le x hx
      · refine Or.inr ?_
        rcases eqlt with he | hlt
        · rw [he]; exact ha
        · exact lt_trans hlt ha
      · intro hp x hx hcost
        rcases List.mem_cons.mp hx with rfl | hx
        · exfalso
          have h1 : (bestOf a rest).cost ≤ a.cost :=
            le a (List.mem_cons_self a rest)
          rw [← hcost] at h1
          exact absurd (lt_of_le_of_lt h1 ha) (lt_irrefl _)
        · exact tie (hp.of_cons) x hx hcost
    · rw [if_neg ha] at hstep
      obtain ⟨m, le, eqlt, tie⟩ := ih t
      rw [hstep]
      have hta : t.cost ≤ a.cost := not_lt.mp ha
      refine ⟨?_, ?_, eqlt, ?_⟩
      · rcases List.mem_cons.mp m with he | hm
        · rw [he]; exact List.mem_cons_self t (a :: rest)
        · exact List.mem_cons_of_mem t (List.mem_cons_of_mem a hm)
      · intro x hx
        rcases List.mem_cons.mp hx with rfl | hx
        · exact le x (List.mem_cons_self x rest)
        rcases List.mem_cons.mp hx with rfl | hx
        · exact le_trans (le t (List.mem_cons_self t rest)) hta
        · exact le x (List.mem_cons_of_mem t hx)
      · intro hp x hx hcost
        have hp2 : List.Pairwise (fun a b : Trial => a.S < b.S) (t :: rest) := by
          refine hp.sublist ?_
          exact List.Sublist.cons₂ t (List.sublist_cons_self a rest)
        rcases List.mem_cons.mp hx with rfl | hx
        · exact tie hp2 x (List.mem_cons_self x rest) hcost
        rcases List.mem_cons.mp hx with rfl | hx
        · have h1 : (bestOf t rest).cost ≤ t.cost :=
            le t (List.mem_cons_self t rest)
          have h2 : x.cost = (bestOf t rest).cost := hcost
          have h3 : (bestOf t rest).cost = t.cost := le_antisymm h1 (by
            rw [← h2]; exact hta)
          have hbt : bestOf t rest = t := by
            rcases eqlt with he | hlt
            · exact he
            · exact absurd (h3 ▸ hlt) (lt_irrefl _)
          rw [hbt]
          exact le_of_lt ((List.pairwise_cons.mp hp).1 x
            (List.mem_cons_self x rest))
        · exact tie hp2 x (List.mem_cons_of_mem t hx) hcost

/-- C1: the optimizer returns `none` exactly when no swept value is
feasible (non-empty geometry with total cost within budget); otherwise it
returns the feasible trials in strictly increasing sweep order, each
within budget, with `best` a member of the trials of minimum cost, ties
resolved in favour of the earliest (smallest `S`) trial. -/
theorem C1_optimizer_run (deps : GenDeps) (cfg : OptConfig) :
    (Optimizer.run deps cfg = none ↔
      ∀ S ∈ sweepValues cfg, ¬ FeasibleAt deps cfg S) ∧
    (∀ r, Optimizer.run deps cfg = some r →
      r.trials = (sweepValues cfg).filterMap (stepTrial deps cfg) ∧
      (∀ t ∈ r.trials, t.cost ≤ cfg.presupuesto_maximo) ∧
      List.Pairwise (fun a b : Trial => a.S < b.S) r.trials ∧
      r.best ∈ r.trials ∧
      (∀ t ∈ r.trials, r.best.cost ≤ t.cost) ∧
      (∀ t ∈ r.trials, t.cost = r.best.cost → r.best.S ≤ t.S)) := by
  have hpair : List.Pairwise (fun a b : Trial => a.S < b.S)
      ((sweepValues cfg).filterMap (stepTrial deps cfg)) := by
    have hsub := filterMap_map_sublist (stepTrial deps cfg) (fun t => t.S)
      (fun a b hab => (stepTrial_some deps cfg a b hab).1) (sweepValues cfg)
    have := (sweep_pairwise cfg).sublist hsub
    exact (List.pairwise_map.mp this)
  constructor
  · rw [Optimizer.run]
    cases hfm : (sweepValues cfg).filterMap (stepTrial deps cfg) with
    | nil =>
      simp only []
      constructor
      · intro _ S hS
        exact (stepTrial_none_iff deps cfg S).mp
          (List.filterMap_eq_nil_iff.mp hfm S hS)
      · intro _
        trivial
    | cons t ts =>
      simp only []
      constructor
      · intro hcon
        exact Option.noConfusion hcon
      · intro hall
        exfalso
        have ht : t ∈ (sweepValues cfg).filterMap (stepTrial deps cfg) := by
          rw [hfm]; exact List.mem_cons_self t ts
        obtain ⟨S, hS, hstep⟩ := List.mem_filterMap.mp ht
        by_cases hf : FeasibleAt deps cfg S
        · exact hall S hS hf
        · rw [(stepTrial_none_iff deps cfg S).mpr hf] at hstep
          exact Option.noConfusion hstep
  · intro r hr
    rw [Optimizer.run] at hr
    cases hfm : (sweepValues cfg).filterMap (stepTrial deps cfg) with
    | nil =>
      rw [hfm] at hr
      exact Option.noConfusion hr
    | cons t ts =>
      rw [hfm] at hr
      cases hr
      obtain ⟨m, le, _, tie⟩ := bestOf_spec ts t
      rw [hfm] at hpair
      refine ⟨rfl, ?_, hpair, m, le, tie hpair⟩
      intro x hx
      have hx2 : x ∈ (sweepValues cfg).filterMap (stepTrial deps cfg) := by
        rw [hfm]; exact hx
      obtain ⟨S, _, hstep⟩ := List.mem_filterMap.mp hx2
      exact (stepTrial_some deps cfg S x hstep).2

/-- A generator bundle that always produces an empty fan. -/
def emptyDeps : GenDeps where
  angular := fun p => some ⟨[], [], p⟩
  directo := fun p => some ⟨[], [], p⟩
  offset := fun p => some ⟨[], [], p⟩
  aeci := fun p => some ⟨[], [], p⟩

/-- Witness for C1: with a generator that never produces holes, no swept
value is feasible and the optimizer returns `none`. -/
theorem C1_optimizer_run_witness :
    Optimizer.run emptyDeps
      ⟨.angular, 1, 3, 0, {}, -45, 45, 30, 0.3, 0, none⟩ = none := by
  apply (C1_optimizer_run emptyDeps _).1.mpr
  rintro S hS ⟨holes, hh, hne, _⟩
  simp only [genAt, emptyDeps, Option.some.injEq] at hh
  rw [← hh] at hne
  exact hne rfl















-- ======================================================================
-- C2: hole length bounds
-- ======================================================================

/-- Distance from the start point to an interpolated point at index `s`. -/
lemma elen_interpolate_left (a b : Pt) (s : ℝ) (h0 : 0 ≤ s) (h1 : s < elen a b) :
    elen a (interpolate a b s) = s := by
  have hL : 0 < elen a b := lt_of_le_of_lt h0 h1
  simp only [interpolate]
  rw [if_neg (ne_of_gt hL), if_neg (not_lt.mpr h0), min_eq_left h1.le,
    max_eq_right h0, elen_padd_smul_left,
    abs_of_nonneg (div_nonneg h0 hL.le)]
  field_simp

/-- The toe returned by `_find_endpoints` is clipped to `max_length`. -/
lemma findEndpoints_max (G : Generator) (ray : Seg) (maxl : ℝ) (hm : 0 ≤ maxl)
    (c t : Pt) (h : _find_endpoints G ray maxl = (some c, some t)) :
    elen c t ≤ maxl := by
  rw [_find_endpoints] at h
  cases hs : _sort_points (segRingPts ray G.drift) G.pivot with
  | nil =>
    simp only [hs] at h
    exact absurd h (by simp)
  | cons collar rest =>
    simp only [hs] at h
    cases hl : (_sort_points (segRingPts ray G.stope) G.pivot).getLast? with
    | none =>
      simp only [hl] at h
      exact absurd h (by simp)
    | some toe =>
      simp only [hl] at h
      rw [Prod.mk.injEq, Option.some.injEq, Option.some.injEq] at h
      obtain ⟨rfl, ht⟩ := h
      by_cases hgt : elen collar toe > maxl
      · rw [if_pos hgt] at ht
        rw [← ht, elen_interpolate_left collar toe maxl hm hgt]
      · rw [if_neg hgt] at ht
        rw [← ht]
        exact not_lt.mp hgt

/-- Every hole kept by the angular loop respects both length bounds. -/
lemma angularLoop_bounds (G : Generator) (minl maxl sp : ℝ) (hm : 0 ≤ maxl) :
    ∀ n line pr, pr ∈ (angularLoop G minl maxl sp n line).1.zip
        (angularLoop G minl maxl sp n line).2 →
      minl ≤ elen pr.1 pr.2 ∧ elen pr.1 pr.2 ≤ maxl := by
  intro n
  induction n with
  | zero =>
    intro line pr hpr
    simp [angularLoop] at hpr
  | succ n ih =>
    intro line pr hpr
    simp only [angularLoop] at hpr
    by_cases hv : _is_valid_hole (_find_endpoints G line maxl).1
        (_find_endpoints G line maxl).2 minl G.stope
    · rw [if_pos hv] at hpr
      cases h1 : (_find_endpoints G line maxl).1 with
      | none =>
        cases h2 : (_find_endpoints G line maxl).2 with
        | none => rw [h1, h2] at hv; exact hv.elim
        | some t0 => rw [h1, h2] at hv; exact hv.elim
      | some c0 =>
        cases h2 : (_find_endpoints G line maxl).2 with
        | none => rw [h1, h2] at hv; exact hv.elim
        | some t0 =>
          rw [h1, h2] at hv
          simp only [h1, h2, List.zip_cons_cons, List.mem_cons] at hpr
          rcases hpr with rfl | hpr
          · exact ⟨not_lt.mp hv.1,
              findEndpoints_max G line maxl hm c0 t0 (Prod.ext_iff.mpr ⟨h1, h2⟩)⟩
          · exact ih (rotateLine sp G.pivot line) pr hpr
    · rw [if_neg hv] at hpr
      exact ih (rotateLine sp G.pivot line) pr hpr

/-- Every hole kept by the offset loop respects both length bounds. -/
lemma offsetLoop_bounds (G : Generator) (sp maxl minl : ℝ) (desired : Side)
    (hm : 0 ≤ maxl) :
    ∀ k line pr, pr ∈ (offsetLoop G sp maxl minl desired k line).1.zip
        (offsetLoop G sp maxl minl desired k line).2 →
      minl ≤ elen pr.1 pr.2 ∧ elen pr.1 pr.2 ≤ maxl := by
  intro k
  induction k with
  | zero =>
    intro line pr hpr
    simp [offsetLoop] at hpr
  | succ k ih =>
    intro line pr hpr
    simp only [offsetLoop] at hpr
    by_cases hv : _is_valid_hole (_find_endpoints G line maxl).1
        (_find_endpoints G line maxl).2 minl G.stope
    · rw [if_pos hv] at hpr
      cases h1 : (_find_endpoints G line maxl).1 with
      | none =>
        cases h2 : (_find_endpoints G line maxl).2 with
        | none => rw [h1, h2] at hv; exact hv.elim
        | some t0 => rw [h1, h2] at hv; exact hv.elim
      | some c0 =>
        cases h2 : (_find_endpoints G line maxl).2 with
        | none => rw [h1, h2] at hv; exact hv.elim
        | some t0 =>
          rw [h1, h2] at hv
          have hhead : minl ≤ elen c0 t0 ∧ elen c0 t0 ≤ maxl :=
            ⟨not_lt.mp hv.1,
             findEndpoints_max G line maxl hm c0 t0 (Prod.ext_iff.mpr ⟨h1, h2⟩)⟩
          simp only [h1, h2, List.zip_cons_cons, List.mem_cons] at hpr
          rcases hpr with rfl | hpr
          · exact hhead
          · cases h3 : (_find_endpoints G line 1e6).2 with
            | none =>
              simp only [h3, List.zip_nil_right] at hpr
              simp at hpr
            | some ft =>
              simp only [h3] at hpr
              by_cases h4 : (_get_tangents ft sp G.pivot).length ≤ 1
              · rw [if_pos h4] at hpr
                simp at hpr
              · rw [if_neg h4] at hpr
                cases h5 : (_get_tangents ft sp G.pivot).filter
                    (fun q => _point_side line q == desired) with
                | nil =>
                  simp only [h5, List.zip_nil_right] at hpr
                  simp at hpr
                | cons q qs =>
                  simp only [h5] at hpr
                  by_cases h6 : elen q t0 < 1e-6
                  · rw [if_pos h6] at hpr
                    simp at hpr
                  · rw [if_neg h6] at hpr
                    exact ih (G.pivot, q) pr hpr
    · rw [if_neg hv] at hpr
      simp at hpr

/-- Every hole kept by the direct loop reaches the minimum length (the
maximum is not enforced there: the toes come straight from the circle
intersection). -/
lemma directLoop_min (G : Generator) (sp amin amax maxl minl : ℝ) :
    ∀ k toe line pr,
      pr ∈ (directLoop G sp amin amax maxl minl k toe line).1.zip
        (directLoop G sp amin amax maxl minl k toe line).2 →
      minl ≤ elen pr.1 pr.2 := by
  intro k
  induction k with
  | zero =>
    intro toe line pr hpr
    simp [directLoop] at hpr
  | succ k ih =>
    intro toe line pr hpr
    simp only [directLoop] at hpr
    by_cases h0 : (circleRingPts toe sp G.stope).length ≤ 1
    · rw [if_pos h0] at hpr
      simp at hpr
    · rw [if_neg h0] at hpr
      cases h1 : (directScan G line amin amax (circleRingPts toe sp G.stope)).1 with
      | none => simp only [h1] at hpr; simp at hpr
      | some best =>
        simp only [h1] at hpr
        by_cases h2 : elen best toe < 1e-6 ∨
            ¬ segIntersectsPoly (G.pivot, best) G.stope
        · rw [if_pos h2] at hpr
          simp at hpr
        · rw [if_neg h2] at hpr
          by_cases h3 : _angle_between G.base_ray (G.pivot, best) > amax ∨
              _angle_between G.base_ray (G.pivot, best) < amin
          · rw [if_pos h3] at hpr
            simp at hpr
          · rw [if_neg h3] at hpr
            by_cases hv : _is_valid_hole
                (_find_endpoints G (G.pivot, best) maxl).1 (some best) minl G.stope
            · rw [if_pos hv] at hpr
              cases h4 : (_find_endpoints G (G.pivot, best) maxl).1 with
              | none => simp only [h4, List.zip_nil_right] at hpr; simp at hpr
              | some c0 =>
                rw [h4] at hv
                simp only [h4, List.zip_cons_cons, List.mem_cons] at hpr
                rcases hpr with rfl | hpr
                · exact not_lt.mp hv.1
                · exact ih best (G.pivot, best) pr hpr
            · rw [if_neg hv] at hpr
              simp at hpr

/-- Every hole kept by the aeci loop respects both length bounds. -/
lemma aeciLoop_bounds (G : Generator) (eff amin amax maxl minl : ℝ)
    (side : Side) (ref : Seg) (hm : 0 ≤ maxl) :
    ∀ k line res,
      aeciLoop G eff amin amax maxl minl side ref k line = some res →
      ∀ pr ∈ res.1.zip res.2,
        minl ≤ elen pr.1 pr.2 ∧ elen pr.1 pr.2 ≤ maxl := by
  intro k
  induction k with
  | zero =>
    intro line res h pr hpr
    rw [aeciLoop] at h
    cases h
    simp at hpr
  | succ k ih =>
    intro line res h pr hpr
    simp only [aeciLoop] at h
    by_cases hi : segIntersectsPoly line G.stope
    · rw [if_neg (not_not_intro hi)] at h
      by_cases hv : _is_valid_hole (_find_endpoints G line maxl).1
          (_find_endpoints G line maxl).2 minl G.stope
      · rw [if_pos hv] at h
        cases h1 : (_find_endpoints G line maxl).1 with
        | none =>
          cases h2 : (_find_endpoints G line maxl).2 with
          | none => rw [h1, h2] at hv; exact hv.elim
          | some t0 => rw [h1, h2] at hv; exact hv.elim
        | some collar =>
          cases h2 : (_find_endpoints G line maxl).2 with
          | none => rw [h1, h2] at hv; exact hv.elim
          | some toe =>
            rw [h1, h2] at hv
            have hhead : minl ≤ elen collar toe ∧ elen collar toe ≤ maxl :=
              ⟨not_lt.mp hv.1,
               findEndpoints_max G line maxl hm collar toe
                 (Prod.ext_iff.mpr ⟨h1, h2⟩)⟩
            simp only [h1, h2] at h
            cases ho1 : _safe_parallel_offset line (0.5 * eff) side with
            | none =>
              simp only [ho1] at h
              cases h
              simp only [List.zip_cons_cons, List.zip_nil_right,
                List.mem_singleton] at hpr
              rw [hpr]
              exact hhead
            | some off1 =>
              cases ho2 : _safe_parallel_offset line eff side with
              | none =>
                simp only [ho1, ho2] at h
                cases h
                simp only [List.zip_cons_cons, List.zip_nil_right,
                  List.mem_singleton] at hpr
                rw [hpr]
                exact hhead
              | some off2 =>
                simp only [ho1, ho2] at h
                by_cases hne : segRingNonempty off1 G.stope
                · rw [if_neg (not_not_intro hne)] at h
                  cases hlast : (_sort_points (segRingPts off1 G.stope)
                      G.pivot).getLast? with
                  | none =>
                    simp only [hlast] at h
                    exact Option.noConfusion h
                  | some pivot_int =>
                    simp only [hlast] at h
                    cases hseg : segInt (rotateLine
                        (if side = Side.left then -90 else 90) pivot_int off1)
                        off2 with
                    | point q =>
                      simp only [hseg] at h
                      by_cases hang : ¬ (amin ≤ _angle_between ref (G.pivot, q) ∧
                          _angle_between ref (G.pivot, q) ≤ amax)
                      · rw [if_pos hang] at h
                        cases h
                        simp only [List.zip_cons_cons, List.zip_nil_right,
                          List.mem_singleton] at hpr
                        rw [hpr]
                        exact hhead
                      · rw [if_neg hang] at h
                        by_cases hel : elen q toe < 1e-6
                        · rw [if_pos hel] at h
                          cases h
                          simp only [List.zip_cons_cons, List.zip_nil_right,
                            List.mem_singleton] at hpr
                          rw [hpr]
                          exact hhead
                        · rw [if_neg hel] at h
                          cases hrec : aeciLoop G eff amin amax maxl minl side
                              ref k (G.pivot, q) with
                          | none =>
                            rw [hrec] at h
                            exact Option.noConfusion h
                          | some rest =>
                            rw [hrec] at h
                            cases h
                            simp only [List.zip_cons_cons, List.mem_cons] at hpr
                            rcases hpr with rfl | hpr
                            · exact hhead
                            · exact ih (G.pivot, q) rest hrec pr hpr
                    | empty =>
                      simp only [hseg] at h
                      cases hnp : _nearest_on SegInt.empty pivot_int with
                      | none =>
                        simp only [hnp] at h
                        cases h
                        simp only [List.zip_cons_cons, List.zip_nil_right,
                          List.mem_singleton] at hpr
                        rw [hpr]
                        exact hhead
                      | some q =>
                        simp only [hnp] at h
                        by_cases hang : ¬ (amin ≤ _angle_between ref (G.pivot, q) ∧
                            _angle_between ref (G.pivot, q) ≤ amax)
                        · rw [if_pos hang] at h
                          cases h
                          simp only [List.zip_cons_cons, List.zip_nil_right,
                            List.mem_singleton] at hpr
                          rw [hpr]
                          exact hhead
                        · rw [if_neg hang] at h
                          by_cases hel : elen q toe < 1e-6
                          · rw [if_pos hel] at h
                            cases h
                            simp only [List.zip_cons_cons, List.zip_nil_right,
                              List.mem_singleton] at hpr
                            rw [hpr]
                            exact hhead
                          · rw [if_neg hel] at h
                            cases hrec : aeciLoop G eff amin amax maxl minl side
                                ref k (G.pivot, q) with
                            | none =>
                              rw [hrec] at h
                              exact Option.noConfusion h
                            | some rest =>
                              rw [hrec] at h
                              cases h
                              simp only [List.zip_cons_cons, List.mem_cons] at hpr
                              rcases hpr with rfl | hpr
                              · exact hhead
                              · exact ih (G.pivot, q) rest hrec pr hpr
                    | overlap a b =>
                      simp only [hseg] at h
                      cases hnp : _nearest_on (SegInt.overlap a b) pivot_int with
                      | none =>
                        simp only [hnp] at h
                        cases h
                        simp only [List.zip_cons_cons, List.zip_nil_right,
                          List.mem_singleton] at hpr
                        rw [hpr]
                        exact hhead
                      | some q =>
                        simp only [hnp] at h
                        by_cases hang : ¬ (amin ≤ _angle_between ref (G.pivot, q) ∧
                            _angle_between ref (G.pivot, q) ≤ amax)
                        · rw [if_pos hang] at h
                          cases h
                          simp only [List.zip_cons_cons, List.zip_nil_right,
                            List.mem_singleton] at hpr
                          rw [hpr]
                          exact hhead
                        · rw [if_neg hang] at h
                          by_cases hel : elen q toe < 1e-6
                          · rw [if_pos hel] at h
                            cases h
                            simp only [List.zip_cons_cons, List.zip_nil_right,
                              List.mem_singleton] at hpr
                            rw [hpr]
                            exact hhead
                          · rw [if_neg hel] at h
                            cases hrec : aeciLoop G eff amin amax maxl minl side
                                ref k (G.pivot, q) with
                            | none =>
                              rw [hrec] at h
                              exact Option.noConfusion h
                            | some rest =>
                              rw [hrec] at h
                              cases h
                              simp only [List.zip_cons_cons, List.mem_cons] at hpr
                              rcases hpr with rfl | hpr
                              · exact hhead
                              · exact ih (G.pivot, q) rest hrec pr hpr
                · rw [if_pos hne] at h
                  cases h
                  simp only [List.zip_cons_cons, List.zip_nil_right,
                    List.mem_singleton] at hpr
                  rw [hpr]
                  exact hhead
      · rw [if_neg hv] at h
        cases h
        simp at hpr
    · rw [if_pos hi] at h
      cases h
      simp at hpr

/-- C2 (amended): with a non-negative `max_length`, every hole emitted by
`generate_angular`, `generate_offset` or `generate_aeci` has
`min_length ≤ length ≤ max_length`; for `generate_direct` every hole
reaches `min_length` and the FIRST hole also respects `max_length`, but
the toes of the subsequent holes come straight from the circle-stope
intersection and are never clipped, so the claimed upper bound fails for
them (see the counterexample). -/
theorem C2_hole_length_bounds (G : Generator) (p : FanParams)
    (hm : 0 ≤ p.max_length) :
    (∀ pr ∈ (generate_angular G p).collars.zip (generate_angular G p).toes,
        p.min_length ≤ elen pr.1 pr.2 ∧ elen pr.1 pr.2 ≤ p.max_length) ∧
    (∀ pr ∈ (generate_offset G p).collars.zip (generate_offset G p).toes,
        p.min_length ≤ elen pr.1 pr.2 ∧ elen pr.1 pr.2 ≤ p.max_length) ∧
    (∀ d, generate_aeci G p = some d →
        ∀ pr ∈ d.collars.zip d.toes,
          p.min_length ≤ elen pr.1 pr.2 ∧ elen pr.1 pr.2 ≤ p.max_length) ∧
    (∀ pr ∈ (generate_direct G p).collars.zip (generate_direct G p).toes,
        p.min_length ≤ elen pr.1 pr.2) ∧
    (∀ c t r1 r2, (generate_direct G p).collars = c :: r1 →
        (generate_direct G p).toes = t :: r2 → elen c t ≤ p.max_length) := by
  refine ⟨?_, ?_, ?_, ?_, ?_⟩
  · intro pr hpr
    simp only [generate_angular] at hpr
    exact angularLoop_bounds G p.min_length p.max_length _ hm _ _ pr hpr
  · intro pr hpr
    simp only [generate_offset] at hpr
    exact offsetLoop_bounds G (p.spacing.getD 0) p.max_length p.min_length _
      hm _ _ pr hpr
  · intro d hd pr hpr
    simp only [generate_aeci] at hd
    rcases Option.map_eq_some'.mp hd with ⟨ls, hls, hd2⟩
    rw [← hd2] at hpr
    exact aeciLoop_bounds G _ p.min_angle p.max_angle p.max_length p.min_length
      _ _ hm _ _ ls hls pr hpr
  · intro pr hpr
    simp only [generate_direct] at hpr
    by_cases hv : _is_valid_hole
        (_find_endpoints G (rotateLine p.min_angle G.pivot G.base_ray)
          p.max_length).1
        (_find_endpoints G (rotateLine p.min_angle G.pivot G.base_ray)
          p.max_length).2 p.min_length G.stope
    · rw [if_pos hv] at hpr
      cases h1 : (_find_endpoints G (rotateLine p.min_angle G.pivot G.base_ray)
          p.max_length).1 with
      | none =>
        simp only [h1] at hpr
        simp at hpr
      | some c0 =>
        simp only [h1] at hpr
        cases h2 : (_find_endpoints G (rotateLine p.min_angle G.pivot
            G.base_ray) p.max_length).2 with
        | none => simp only [h2] at hpr; simp at hpr
        | some t0 =>
          simp only [h2] at hpr
          rw [h1, h2] at hv
          simp only [List.zip_cons_cons, List.mem_cons] at hpr
          rcases hpr with rfl | hpr
          · exact not_lt.mp hv.1
          · exact directLoop_min G (p.spacing.getD 0) p.min_angle p.max_angle
              p.max_length p.min_length _ _ _ pr hpr
    · rw [if_neg hv] at hpr
      simp at hpr
  · intro c t r1 r2 hc ht
    simp only [generate_direct] at hc ht
    by_cases hv : _is_valid_hole
        (_find_endpoints G (rotateLine p.min_angle G.pivot G.base_ray)
          p.max_length).1
        (_find_endpoints G (rotateLine p.min_angle G.pivot G.base_ray)
          p.max_length).2 p.min_length G.stope
    · rw [if_pos hv] at hc ht
      cases h1 : (_find_endpoints G (rotateLine p.min_angle G.pivot G.base_ray)
          p.max_length).1 with
      | none =>
        simp only [h1] at hc
        exact absurd hc (by simp)
      | some c0 =>
        simp only [h1] at hc ht
        cases h2 : (_find_endpoints G (rotateLine p.min_angle G.pivot
            G.base_ray) p.max_length).2 with
        | none =>
          simp only [h2] at hc
          exact absurd hc (by simp)
        | some t0 =>
          simp only [h2] at hc ht
          rw [List.cons.injEq] at hc ht
          rw [← hc.1, ← ht.1]
          exact findEndpoints_max G _ p.max_length hm c0 t0
            (Prod.ext_iff.mpr ⟨h1, h2⟩)
    · rw [if_neg hv] at hc
      exact absurd hc (by simp)

/-- A degenerate generator used to witness the length-bound theorem. -/
def Gtriv : Generator := ⟨[], [], ((0:ℝ), (0:ℝ)), (((0:ℝ), (0:ℝ)), ((0:ℝ), (1:ℝ)))⟩

/-- Parameters used to witness the length-bound theorem. -/
def Ptriv : FanParams := ⟨0, none, none, 0, 0, 1, 1/10⟩

/-- Witness for C2 at a concrete generator and parameter set: the
`max_length` hypothesis holds and the angular bound applies. -/
theorem C2_hole_length_bounds_witness :
    (0:ℝ) ≤ Ptriv.max_length ∧
    ∀ pr ∈ (generate_angular Gtriv Ptriv).collars.zip
        (generate_angular Gtriv Ptriv).toes,
      Ptriv.min_length ≤ elen pr.1 pr.2 ∧ elen pr.1 pr.2 ≤ Ptriv.max_length :=
  ⟨by norm_num [Ptriv],
   (C2_hole_length_bounds Gtriv Ptriv (by norm_num [Ptriv])).1⟩


/-- Non-parallel segments whose intersection parameters leave `[0, 1]`
do not intersect. -/
lemma segInt_empty_out (s1 s2 : Seg) (t u : ℝ)
    (hden : cross2 (lineVec s1) (lineVec s2) ≠ 0)
    (ht : cross2 (psub s2.1 s1.1) (lineVec s2) =
      t * cross2 (lineVec s1) (lineVec s2))
    (hu : cross2 (psub s2.1 s1.1) (lineVec s1) =
      u * cross2 (lineVec s1) (lineVec s2))
    (hout : ¬ (0 ≤ t ∧ t ≤ 1 ∧ 0 ≤ u ∧ u ≤ 1)) :
    segInt s1 s2 = SegInt.empty := by
  simp only [segInt]
  rw [if_pos hden]
  have htt : cross2 (psub s2.1 s1.1) (lineVec s2) /
      cross2 (lineVec s1) (lineVec s2) = t := by
    rw [ht, mul_div_assoc, div_self hden, mul_one]
  have huu : cross2 (psub s2.1 s1.1) (lineVec s1) /
      cross2 (lineVec s1) (lineVec s2) = u := by
    rw [hu, mul_div_assoc, div_self hden, mul_one]
  rw [htt, huu, if_neg hout]

/-- A circle misses a non-degenerate segment when the discriminant of the
parameter quadratic is negative. -/
lemma circleSegInts_nil (c : Pt) (r : ℝ) (s : Seg)
    (hA : sqLen (lineVec s) ≠ 0)
    (hd : (2 * dot2 (psub s.1 c) (lineVec s)) ^ 2 -
      4 * sqLen (lineVec s) * (sqLen (psub s.1 c) - r ^ 2) < 0) :
    circleSegInts c r s = [] := by
  simp only [circleSegInts]
  rw [if_neg hA, if_pos hd]

/-- Evaluation of a two-point circle-segment intersection from the solved
quadratic. -/
lemma circleSegInts_pair (c : Pt) (r : ℝ) (s : Seg) (sq t1 t2 : ℝ) (P1 P2 : Pt)
    (hA : sqLen (lineVec s) ≠ 0)
    (hnd : ¬ (2 * dot2 (psub s.1 c) (lineVec s)) ^ 2 -
      4 * sqLen (lineVec s) * (sqLen (psub s.1 c) - r ^ 2) < 0)
    (hsq : Real.sqrt ((2 * dot2 (psub s.1 c) (lineVec s)) ^ 2 -
      4 * sqLen (lineVec s) * (sqLen (psub s.1 c) - r ^ 2)) = sq)
    (ht1 : (-(2 * dot2 (psub s.1 c) (lineVec s)) - sq) /
      (2 * sqLen (lineVec s)) = t1)
    (ht2 : (-(2 * dot2 (psub s.1 c) (lineVec s)) + sq) /
      (2 * sqLen (lineVec s)) = t2)
    (h1 : 0 ≤ t1 ∧ t1 ≤ 1) (h2 : (0 ≤ t2 ∧ t2 ≤ 1) ∧ t2 ≠ t1)
    (hP1 : padd s.1 (psmul t1 (lineVec s)) = P1)
    (hP2 : padd s.1 (psmul t2 (lineVec s)) = P2) :
    circleSegInts c r s = [P1, P2] := by
  simp only [circleSegInts]
  rw [if_neg hA, if_neg hnd, hsq, ht1, ht2, if_pos h1, if_pos h2, hP1, hP2]
  rfl

/-- Sorting a two-point list already in order of distance to the pivot. -/
lemma sort_pair (p q pivot : Pt) (h : elen p pivot ≤ elen q pivot) :
    _sort_points [p, q] pivot = [p, q] := by
  simp only [_sort_points, List.insertionSort, List.orderedInsert]
  rw [if_pos h]

/-- Rotating by zero degrees moves nothing. -/
lemma rotateDeg_zero (o p : Pt) : rotateDeg 0 o p = p := by
  simp only [rotateDeg, radOfDeg, zero_mul, zero_div, Real.cos_zero,
    Real.sin_zero, mul_one, mul_zero, sub_zero, add_zero]
  have h1 : o.1 + (p.1 - o.1) = p.1 := by ring
  have h2 : o.2 + (p.2 - o.2) = p.2 := by ring
  rw [h1, h2]

/-- Rotating a line by zero degrees moves nothing. -/
lemma rotateLine_zero (o : Pt) (l : Seg) : rotateLine 0 o l = l := by
  simp only [rotateLine, rotateDeg_zero]

/-- `degOfRad` is monotone. -/
lemma degOfRad_le_degOfRad {r r2 : ℝ} (h : r ≤ r2) :
    degOfRad r ≤ degOfRad r2 := by
  have hp := Real.pi_pos
  rw [degOfRad, degOfRad, div_le_div_iff₀ hp hp]
  nlinarith

/-- Closed-form evaluation of `_angle_between` on lines with non-null
direction vectors whose normalised dot product needs no clipping. -/
lemma angle_between_eval (la lb : Seg) (vax vay vbx vby na nb : ℝ)
    (hva : lineVec la = (vax, vay)) (hvb : lineVec lb = (vbx, vby))
    (hna : Real.sqrt (sqLen (vax, vay)) = na)
    (hnb : Real.sqrt (sqLen (vbx, vby)) = nb)
    (hna0 : na ≠ 0) (hnb0 : nb ≠ 0)
    (hlo : -1 ≤ (vax * vbx + vay * vby) / (na * nb))
    (hhi : (vax * vbx + vay * vby) / (na * nb) ≤ 1) :
    _angle_between la lb =
      degOfRad (atan2 ((vax * vby - vay * vbx) / (na * nb))
        ((vax * vbx + vay * vby) / (na * nb))) := by
  simp only [_angle_between, hva, hvb, hna, hnb]
  rw [if_neg (by push_neg; exact ⟨hna0, hnb0⟩)]
  have h1 : dot2 (psmul na⁻¹ (vax, vay)) (psmul nb⁻¹ (vbx, vby)) =
      (vax * vbx + vay * vby) / (na * nb) := by
    simp only [dot2, psmul]
    field_simp
  have h2 : cross2 (psmul na⁻¹ (vax, vay)) (psmul nb⁻¹ (vbx, vby)) =
      (vax * vby - vay * vbx) / (na * nb) := by
    simp only [cross2, psmul]
    field_simp
  rw [h1, h2, min_eq_right hhi, max_eq_right hlo]

/-- Stope outline of the worked `generate_direct` example: a 100 m x 15 m
rectangle sitting between heights 5 and 20. -/
def stopeC2 : List Pt := rectRing (-50) 5 50 20

/-- Drift outline of the worked example: a small rectangle around the
collar region, between heights 1 and 2. -/
def driftC2 : List Pt := rectRing (-1) 1 1 2

/-- The generator state built by `DrillFanGenerator.__init__` on the
example geometry with pivot `(0, 0)`. -/
def GC2 : Generator := mkGenerator (fun _ => none) stopeC2 driftC2 (0, 0)

/-- Parameters of the worked example: spacing 6 m, fan from 0 to 80
degrees, lengths between 0.1 and 19.5 m. -/
def PC2 : FanParams := ⟨0, some 6, none, 0, 80, 39/2, 1/10⟩

lemma stopeC2_fix : _fix_polygon (fun _ => none) stopeC2 = stopeC2 :=
  fix_polygon_of_valid _ _
    (rect_valid (-50) 5 50 20 (by norm_num) (by norm_num))

lemma driftC2_fix : _fix_polygon (fun _ => none) driftC2 = driftC2 :=
  fix_polygon_of_valid _ _
    (rect_valid (-1) 1 1 2 (by norm_num) (by norm_num))

lemma stopeC2_edges : ringEdges stopeC2 =
    [(((-50:ℝ),(5:ℝ)), ((50:ℝ),(5:ℝ))), (((50:ℝ),(5:ℝ)), ((50:ℝ),(20:ℝ))),
     (((50:ℝ),(20:ℝ)), ((-50:ℝ),(20:ℝ))),
     (((-50:ℝ),(20:ℝ)), ((-50:ℝ),(5:ℝ)))] :=
  rect_edges (-50) 5 50 20

lemma driftC2_edges : ringEdges driftC2 =
    [(((-1:ℝ),(1:ℝ)), ((1:ℝ),(1:ℝ))), (((1:ℝ),(1:ℝ)), ((1:ℝ),(2:ℝ))),
     (((1:ℝ),(2:ℝ)), ((-1:ℝ),(2:ℝ))), (((-1:ℝ),(2:ℝ)), ((-1:ℝ),(1:ℝ)))] :=
  rect_edges (-1) 1 1 2

/-- The example pivot lies below the stope, outside it. -/
lemma pivotC2_out : ¬ polyContainsPt stopeC2 ((0:ℝ), (0:ℝ)) := by
  intro hcon
  have hcc : crossCount stopeC2 ((0:ℝ), (0:ℝ)) = 0 := by
    rw [crossCount, stopeC2_edges]
    norm_num [crossesRay]
  obtain ⟨_, hodd⟩ := hcon
  rw [hcc] at hodd
  simp [Nat.odd_iff] at hodd

/-- Centroid of the example stope. -/
lemma centC2_eval : ringCentroid stopeC2 = ((0:ℝ), (25/2:ℝ)) := by
  have hA : ringArea2 stopeC2 = 3000 := by
    rw [ringArea2, stopeC2_edges]
    norm_num [cross2]
  rw [ringCentroid, hA, stopeC2_edges]
  norm_num [cross2, Prod.ext_iff]

/-- Evaluation of the example generator: the repaired polygons are the
inputs themselves, the pivot stays at the origin and the base ray points
straight up (the centroid sits vertically above the pivot). -/
lemma GC2_eval : GC2 = ⟨stopeC2, driftC2, ((0:ℝ), (0:ℝ)),
    (((0:ℝ),(0:ℝ)), ((0:ℝ),(10000:ℝ)))⟩ := by
  rw [GC2]
  simp only [mkGenerator, stopeC2_fix, driftC2_fix]
  rw [if_neg pivotC2_out, centC2_eval]
  have harg : atan2 ((25/2:ℝ) - ((0:ℝ),(0:ℝ)).2) (((0:ℝ),(25/2:ℝ)).1 - ((0:ℝ),(0:ℝ)).1) = π / 2 := by
    rw [atan2]
    refine Complex.arg_eq_pi_div_two_iff.mpr ⟨?_, ?_⟩
    · show (((0:ℝ),(25/2:ℝ)).1 - ((0:ℝ),(0:ℝ)).1) = 0
      norm_num
    · show (0:ℝ) < (25/2:ℝ) - ((0:ℝ),(0:ℝ)).2
      norm_num
  rw [harg]
  have hrd : radOfDeg (degOfRad (π / 2)) = π / 2 := by
    rw [radOfDeg, degOfRad]
    field_simp
    ring
  rw [hrd, Real.cos_pi_div_two, Real.sin_pi_div_two]
  norm_num

end

/-- The vertical base ray crosses the drift boundary at heights 1 and 2. -/
lemma rayA_drift :
    segRingPts (((0:ℝ),(0:ℝ)), ((0:ℝ),(10000:ℝ))) driftC2 =
      [((0:ℝ),(1:ℝ)), ((0:ℝ),(2:ℝ))] := by
  have e1 : segInt (((0:ℝ),(0:ℝ)), ((0:ℝ),(10000:ℝ)))
      (((-1:ℝ),(1:ℝ)), ((1:ℝ),(1:ℝ))) = SegInt.point ((0:ℝ),(1:ℝ)) :=
    segInt_point_of _ _ (1/10000) (1/2) _
      (by norm_num [cross2, lineVec, psub])
      (by norm_num [cross2, lineVec, psub])
      (by norm_num [cross2, lineVec, psub])
      (by norm_num) (by norm_num) (by norm_num) (by norm_num)
      (by norm_num [padd, psmul, lineVec, psub, Prod.ext_iff])
  have e2 : segInt (((0:ℝ),(0:ℝ)), ((0:ℝ),(10000:ℝ)))
      (((1:ℝ),(1:ℝ)), ((1:ℝ),(2:ℝ))) = SegInt.empty :=
    segInt_empty_parallel _ _
      (by norm_num [cross2, lineVec, psub])
      (by norm_num [cross2, lineVec, psub])
  have e3 : segInt (((0:ℝ),(0:ℝ)), ((0:ℝ),(10000:ℝ)))
      (((1:ℝ),(2:ℝ)), ((-1:ℝ),(2:ℝ))) = SegInt.point ((0:ℝ),(2:ℝ)) :=
    segInt_point_of _ _ (1/5000) (1/2) _
      (by norm_num [cross2, lineVec, psub])
      (by norm_num [cross2, lineVec, psub])
      (by norm_num [cross2, lineVec, psub])
      (by norm_num) (by norm_num) (by norm_num) (by norm_num)
      (by norm_num [padd, psmul, lineVec, psub, Prod.ext_iff])
  have e4 : segInt (((0:ℝ),(0:ℝ)), ((0:ℝ),(10000:ℝ)))
      (((-1:ℝ),(2:ℝ)), ((-1:ℝ),(1:ℝ))) = SegInt.empty :=
    segInt_empty_parallel _ _
      (by norm_num [cross2, lineVec, psub])
      (by norm_num [cross2, lineVec, psub])
  rw [segRingPts, segRingAll, driftC2_edges]
  simp only [List.map_cons, List.map_nil, e1, e2, e3, e4,
    List.flatMap_cons, List.flatMap_nil, segIntPts,
    List.nil_append, List.append_nil, List.singleton_append]
  rw [List.dedup_cons_of_not_mem (by norm_num [Prod.ext_iff]),
    List.dedup_cons_of_not_mem (by simp), List.dedup_nil]

/-- The vertical base ray crosses the stope boundary at heights 5 and 20. -/
lemma rayA_stope :
    segRingPts (((0:ℝ),(0:ℝ)), ((0:ℝ),(10000:ℝ))) stopeC2 =
      [((0:ℝ),(5:ℝ)), ((0:ℝ),(20:ℝ))] := by
  have e1 : segInt (((0:ℝ),(0:ℝ)), ((0:ℝ),(10000:ℝ)))
      (((-50:ℝ),(5:ℝ)), ((50:ℝ),(5:ℝ))) = SegInt.point ((0:ℝ),(5:ℝ)) :=
    segInt_point_of _ _ (1/2000) (1/2) _
      (by norm_num [cross2, lineVec, psub])
      (by norm_num [cross2, lineVec, psub])
      (by norm_num [cross2, lineVec, psub])
      (by norm_num) (by norm_num) (by norm_num) (by norm_num)
      (by norm_num [padd, psmul, lineVec, psub, Prod.ext_iff])
  have e2 : segInt (((0:ℝ),(0:ℝ)), ((0:ℝ),(10000:ℝ)))
      (((50:ℝ),(5:ℝ)), ((50:ℝ),(20:ℝ))) = SegInt.empty :=
    segInt_empty_parallel _ _
      (by norm_num [cross2, lineVec, psub])
      (by norm_num [cross2, lineVec, psub])
  have e3 : segInt (((0:ℝ),(0:ℝ)), ((0:ℝ),(10000:ℝ)))
      (((50:ℝ),(20:ℝ)), ((-50:ℝ),(20:ℝ))) = SegInt.point ((0:ℝ),(20:ℝ)) :=
    segInt_point_of _ _ (1/500) (1/2) _
      (by norm_num [cross2, lineVec, psub])
      (by norm_num [cross2, lineVec, psub])
      (by norm_num [cross2, lineVec, psub])
      (by norm_num) (by norm_num) (by norm_num) (by norm_num)
      (by norm_num [padd, psmul, lineVec, psub, Prod.ext_iff])
  have e4 : segInt (((0:ℝ),(0:ℝ)), ((0:ℝ),(10000:ℝ)))
      (((-50:ℝ),(20:ℝ)), ((-50:ℝ),(5:ℝ))) = SegInt.empty :=
    segInt_empty_parallel _ _
      (by norm_num [cross2, lineVec, psub])
      (by norm_num [cross2, lineVec, psub])
  rw [segRingPts, segRingAll, stopeC2_edges]
  simp only [List.map_cons, List.map_nil, e1, e2, e3, e4,
    List.flatMap_cons, List.flatMap_nil, segIntPts,
    List.nil_append, List.append_nil, List.singleton_append]
  rw [List.dedup_cons_of_not_mem (by norm_num [Prod.ext_iff]),
    List.dedup_cons_of_not_mem (by simp), List.dedup_nil]

/-- The second ray (towards `(-6, 20)`) crosses the drift boundary at
`(-3/10, 1)` and `(-3/5, 2)`. -/
lemma rayB_drift :
    segRingPts (((0:ℝ),(0:ℝ)), ((-6:ℝ),(20:ℝ))) driftC2 =
      [((-3/10:ℝ),(1:ℝ)), ((-3/5:ℝ),(2:ℝ))] := by
  have e1 : segInt (((0:ℝ),(0:ℝ)), ((-6:ℝ),(20:ℝ)))
      (((-1:ℝ),(1:ℝ)), ((1:ℝ),(1:ℝ))) = SegInt.point ((-3/10:ℝ),(1:ℝ)) :=
    segInt_point_of _ _ (1/20) (7/20) _
      (by norm_num [cross2, lineVec, psub])
      (by norm_num [cross2, lineVec, psub])
      (by norm_num [cross2, lineVec, psub])
      (by norm_num) (by norm_num) (by norm_num) (by norm_num)
      (by norm_num [padd, psmul, lineVec, psub, Prod.ext_iff])
  have e2 : segInt (((0:ℝ),(0:ℝ)), ((-6:ℝ),(20:ℝ)))
      (((1:ℝ),(1:ℝ)), ((1:ℝ),(2:ℝ))) = SegInt.empty :=
    segInt_empty_out _ _ (-1/6) (-13/3)
      (by norm_num [cross2, lineVec, psub])
      (by norm_num [cross2, lineVec, psub])
      (by norm_num [cross2, lineVec, psub])
      (by norm_num)
  have e3 : segInt (((0:ℝ),(0:ℝ)), ((-6:ℝ),(20:ℝ)))
      (((1:ℝ),(2:ℝ)), ((-1:ℝ),(2:ℝ))) = SegInt.point ((-3/5:ℝ),(2:ℝ)) :=
    segInt_point_of _ _ (1/10) (4/5) _
      (by norm_num [cross2, lineVec, psub])
      (by norm_num [cross2, lineVec, psub])
      (by norm_num [cross2, lineVec, psub])
      (by norm_num) (by norm_num) (by norm_num) (by norm_num)
      (by norm_num [padd, psmul, lineVec, psub, Prod.ext_iff])
  have e4 : segInt (((0:ℝ),(0:ℝ)), ((-6:ℝ),(20:ℝ)))
      (((-1:ℝ),(2:ℝ)), ((-1:ℝ),(1:ℝ))) = SegInt.empty :=
    segInt_empty_out _ _ (1/6) (-4/3)
      (by norm_num [cross2, lineVec, psub])
      (by norm_num [cross2, lineVec, psub])
      (by norm_num [cross2, lineVec, psub])
      (by norm_num)
  rw [segRingPts, segRingAll, driftC2_edges]
  simp only [List.map_cons, List.map_nil, e1, e2, e3, e4,
    List.flatMap_cons, List.flatMap_nil, segIntPts,
    List.nil_append, List.append_nil, List.singleton_append]
  rw [List.dedup_cons_of_not_mem (by norm_num [Prod.ext_iff]),
    List.dedup_cons_of_not_mem (by simp), List.dedup_nil]

/-- The second ray crosses the stope boundary at `(-3/2, 5)` and
`(-6, 20)`. -/
lemma rayB_stope :
    segRingPts (((0:ℝ),(0:ℝ)), ((-6:ℝ),(20:ℝ))) stopeC2 =
      [((-3/2:ℝ),(5:ℝ)), ((-6:ℝ),(20:ℝ))] := by
  have e1 : segInt (((0:ℝ),(0:ℝ)), ((-6:ℝ),(20:ℝ)))
      (((-50:ℝ),(5:ℝ)), ((50:ℝ),(5:ℝ))) = SegInt.point ((-3/2:ℝ),(5:ℝ)) :=
    segInt_point_of _ _ (1/4) (97/200) _
      (by norm_num [cross2, lineVec, psub])
      (by norm_num [cross2, lineVec, psub])
      (by norm_num [cross2, lineVec, psub])
      (by norm_num) (by norm_num) (by norm_num) (by norm_num)
      (by norm_num [padd, psmul, lineVec, psub, Prod.ext_iff])
  have e2 : segInt (((0:ℝ),(0:ℝ)), ((-6:ℝ),(20:ℝ)))
      (((50:ℝ),(5:ℝ)), ((50:ℝ),(20:ℝ))) = SegInt.empty :=
    segInt_empty_out _ _ (-25/3) (-103/9)
      (by norm_num [cross2, lineVec, psub])
      (by norm_num [cross2, lineVec, psub])
      (by norm_num [cross2, lineVec, psub])
      (by norm_num)
  have e3 : segInt (((0:ℝ),(0:ℝ)), ((-6:ℝ),(20:ℝ)))
      (((50:ℝ),(20:ℝ)), ((-50:ℝ),(20:ℝ))) = SegInt.point ((-6:ℝ),(20:ℝ)) :=
    segInt_point_of _ _ 1 (14/25) _
      (by norm_num [cross2, lineVec, psub])
      (by norm_num [cross2, lineVec, psub])
      (by norm_num [cross2, lineVec, psub])
      (by norm_num) (by norm_num) (by norm_num) (by norm_num)
      (by norm_num [padd, psmul, lineVec, psub, Prod.ext_iff])
  have e4 : segInt (((0:ℝ),(0:ℝ)), ((-6:ℝ),(20:ℝ)))
      (((-50:ℝ),(20:ℝ)), ((-50:ℝ),(5:ℝ))) = SegInt.empty :=
    segInt_empty_out _ _ (25/3) (-88/9)
      (by norm_num [cross2, lineVec, psub])
      (by norm_num [cross2, lineVec, psub])
      (by norm_num [cross2, lineVec, psub])
      (by norm_num)
  rw [segRingPts, segRingAll, stopeC2_edges]
  simp only [List.map_cons, List.map_nil, e1, e2, e3, e4,
    List.flatMap_cons, List.flatMap_nil, segIntPts,
    List.nil_append, List.append_nil, List.singleton_append]
  rw [List.dedup_cons_of_not_mem (by norm_num [Prod.ext_iff]),
    List.dedup_cons_of_not_mem (by simp), List.dedup_nil]

/-- Endpoints of the first direct hole: collar `(0, 1)`, toe `(0, 20)`
(length 19, below the 19.5 cap, so no clipping). -/
lemma feA_eval : _find_endpoints GC2 (((0:ℝ),(0:ℝ)), ((0:ℝ),(10000:ℝ)))
    (39/2) = (some ((0:ℝ),(1:ℝ)), some ((0:ℝ),(20:ℝ))) := by
  have h1 : elen ((0:ℝ),(1:ℝ)) ((0:ℝ),(0:ℝ)) = 1 :=
    elen_eval (by norm_num) (by norm_num [sqLen, psub])
  have h2 : elen ((0:ℝ),(2:ℝ)) ((0:ℝ),(0:ℝ)) = 2 :=
    elen_eval (by norm_num) (by norm_num [sqLen, psub])
  have h5 : elen ((0:ℝ),(5:ℝ)) ((0:ℝ),(0:ℝ)) = 5 :=
    elen_eval (by norm_num) (by norm_num [sqLen, psub])
  have h20 : elen ((0:ℝ),(20:ℝ)) ((0:ℝ),(0:ℝ)) = 20 :=
    elen_eval (by norm_num) (by norm_num [sqLen, psub])
  have h120 : elen ((0:ℝ),(1:ℝ)) ((0:ℝ),(20:ℝ)) = 19 :=
    elen_eval (by norm_num) (by norm_num [sqLen, psub])
  simp only [_find_endpoints, GC2_eval]
  rw [rayA_drift, rayA_stope,
    sort_pair ((0:ℝ),(1:ℝ)) ((0:ℝ),(2:ℝ)) ((0:ℝ),(0:ℝ))
      (by rw [h1, h2]; norm_num),
    sort_pair ((0:ℝ),(5:ℝ)) ((0:ℝ),(20:ℝ)) ((0:ℝ),(0:ℝ))
      (by rw [h5, h20]; norm_num)]
  have hgl : ([((0:ℝ),(5:ℝ)), ((0:ℝ),(20:ℝ))]).getLast? =
      some ((0:ℝ),(20:ℝ)) := rfl
  rw [hgl]
  simp only []
  rw [if_neg (by rw [h120]; norm_num)]

/-- Endpoints along the second direct ray: collar `(-3/10, 1)`; the raw
toe `(-6, 20)` is farther than 19.5 m from the collar, so the pair
returned by `_find_endpoints` carries the clipped toe. -/
lemma feB_eval : _find_endpoints GC2 (((0:ℝ),(0:ℝ)), ((-6:ℝ),(20:ℝ)))
    (39/2) = (some ((-3/10:ℝ),(1:ℝ)),
      some (interpolate ((-3/10:ℝ),(1:ℝ)) ((-6:ℝ),(20:ℝ)) (39/2))) := by
  have hd1 : elen ((-3/10:ℝ),(1:ℝ)) ((0:ℝ),(0:ℝ)) = Real.sqrt (109/100) := by
    rw [elen, show sqLen (psub ((0:ℝ),(0:ℝ)) ((-3/10:ℝ),(1:ℝ))) = 109/100
      by norm_num [sqLen, psub]]
  have hd2 : elen ((-3/5:ℝ),(2:ℝ)) ((0:ℝ),(0:ℝ)) = Real.sqrt (109/25) := by
    rw [elen, show sqLen (psub ((0:ℝ),(0:ℝ)) ((-3/5:ℝ),(2:ℝ))) = 109/25
      by norm_num [sqLen, psub]]
  have hs1 : elen ((-3/2:ℝ),(5:ℝ)) ((0:ℝ),(0:ℝ)) = Real.sqrt (109/4) := by
    rw [elen, show sqLen (psub ((0:ℝ),(0:ℝ)) ((-3/2:ℝ),(5:ℝ))) = 109/4
      by norm_num [sqLen, psub]]
  have hs2 : elen ((-6:ℝ),(20:ℝ)) ((0:ℝ),(0:ℝ)) = Real.sqrt 436 := by
    rw [elen, show sqLen (psub ((0:ℝ),(0:ℝ)) ((-6:ℝ),(20:ℝ))) = 436
      by norm_num [sqLen, psub]]
  have helB : elen ((-3/10:ℝ),(1:ℝ)) ((-6:ℝ),(20:ℝ)) =
      Real.sqrt (39349/100) := by
    rw [elen, show sqLen (psub ((-6:ℝ),(20:ℝ)) ((-3/10:ℝ),(1:ℝ))) = 39349/100
      by norm_num [sqLen, psub]]
  simp only [_find_endpoints, GC2_eval]
  rw [rayB_drift, rayB_stope,
    sort_pair ((-3/10:ℝ),(1:ℝ)) ((-3/5:ℝ),(2:ℝ)) ((0:ℝ),(0:ℝ))
      (by rw [hd1, hd2]; exact Real.sqrt_le_sqrt (by norm_num)),
    sort_pair ((-3/2:ℝ),(5:ℝ)) ((-6:ℝ),(20:ℝ)) ((0:ℝ),(0:ℝ))
      (by rw [hs1, hs2]; exact Real.sqrt_le_sqrt (by norm_num))]
  have hgl : ([((-3/2:ℝ),(5:ℝ)), ((-6:ℝ),(20:ℝ))]).getLast? =
      some ((-6:ℝ),(20:ℝ)) := rfl
  rw [hgl]
  simp only []
  rw [if_pos (by
    rw [helB]
    exact Real.lt_sqrt_of_sq_lt (by norm_num))]

/-- The 6 m circle around the first toe meets the stope boundary exactly
at `(6, 20)` and `(-6, 20)` on the top edge. -/
lemma circleB_eval : circleRingPts ((0:ℝ),(20:ℝ)) 6 stopeC2 =
    [((6:ℝ),(20:ℝ)), ((-6:ℝ),(20:ℝ))] := by
  have c1 : circleSegInts ((0:ℝ),(20:ℝ)) 6
      (((-50:ℝ),(5:ℝ)), ((50:ℝ),(5:ℝ))) = [] :=
    circleSegInts_nil _ _ _
      (by norm_num [sqLen, lineVec, psub])
      (by norm_num [sqLen, lineVec, psub, dot2])
  have c2 : circleSegInts ((0:ℝ),(20:ℝ)) 6
      (((50:ℝ),(5:ℝ)), ((50:ℝ),(20:ℝ))) = [] :=
    circleSegInts_nil _ _ _
      (by norm_num [sqLen, lineVec, psub])
      (by norm_num [sqLen, lineVec, psub, dot2])
  have c3 : circleSegInts ((0:ℝ),(20:ℝ)) 6
      (((50:ℝ),(20:ℝ)), ((-50:ℝ),(20:ℝ))) =
      [((6:ℝ),(20:ℝ)), ((-6:ℝ),(20:ℝ))] :=
    circleSegInts_pair _ _ _ 1200 (11/25) (14/25) _ _
      (by norm_num [sqLen, lineVec, psub])
      (by norm_num [sqLen, lineVec, psub, dot2])
      (by
        norm_num [sqLen, lineVec, psub, dot2]
        rw [show (1440000:ℝ) = 1200 ^ 2 by norm_num,
          Real.sqrt_sq (by norm_num : (0:ℝ) ≤ 1200)])
      (by norm_num [sqLen, lineVec, psub, dot2])
      (by norm_num [sqLen, lineVec, psub, dot2])
      ⟨by norm_num, by norm_num⟩
      ⟨⟨by norm_num, by norm_num⟩, by norm_num⟩
      (by norm_num [padd, psmul, lineVec, psub, Prod.ext_iff])
      (by norm_num [padd, psmul, lineVec, psub, Prod.ext_iff])
  have c4 : circleSegInts ((0:ℝ),(20:ℝ)) 6
      (((-50:ℝ),(20:ℝ)), ((-50:ℝ),(5:ℝ))) = [] :=
    circleSegInts_nil _ _ _
      (by norm_num [sqLen, lineVec, psub])
      (by norm_num [sqLen, lineVec, psub, dot2])
  rw [circleRingPts, stopeC2_edges]
  simp only [List.flatMap_cons, List.flatMap_nil, c1, c2, c3, c4,
    List.nil_append, List.append_nil]
  rw [List.dedup_cons_of_not_mem (by norm_num [Prod.ext_iff]),
    List.dedup_cons_of_not_mem (by simp), List.dedup_nil]

/-- `degOfRad` keeps signs: negative radians give negative degrees. -/
lemma degOfRad_neg {r : ℝ} (h : r < 0) : degOfRad r < 0 := by
  rw [degOfRad]
  exact div_neg_of_neg_of_pos (by nlinarith) Real.pi_pos

/-- `degOfRad` keeps signs: non-negative radians give non-negative
degrees. -/
lemma degOfRad_nonneg {r : ℝ} (h : 0 ≤ r) : 0 ≤ degOfRad r := by
  rw [degOfRad]
  exact div_nonneg (by nlinarith) Real.pi_pos.le

/-- The candidate `(6, 20)` sits clockwise of the vertical base ray: its
signed angle is negative. -/
lemma angleA_neg :
    _angle_between (((0:ℝ),(0:ℝ)), ((0:ℝ),(10000:ℝ)))
      (((0:ℝ),(0:ℝ)), ((6:ℝ),(20:ℝ))) < 0 := by
  have hsp : (0:ℝ) < Real.sqrt 436 := Real.sqrt_pos.mpr (by norm_num)
  have hq : ((0:ℝ) * 6 + 10000 * 20) / (10000 * Real.sqrt 436) =
      20 / Real.sqrt 436 := by
    rw [div_eq_div_iff (by positivity) hsp.ne']
    ring
  rw [angle_between_eval _ _ 0 10000 6 20 10000 (Real.sqrt 436)
    (by norm_num [lineVec, psub]) (by norm_num [lineVec, psub])
    (by
      rw [show sqLen ((0:ℝ),(10000:ℝ)) = 10000 ^ 2 by norm_num [sqLen]]
      exact Real.sqrt_sq (by norm_num))
    (by rw [show sqLen ((6:ℝ),(20:ℝ)) = 436 by norm_num [sqLen]])
    (by norm_num) hsp.ne'
    (by
      rw [hq]
      have h0 : (0:ℝ) ≤ 20 / Real.sqrt 436 := by positivity
      linarith)
    (by
      rw [hq, div_le_one hsp]
      exact (Real.le_sqrt (by norm_num) (by norm_num)).mpr (by norm_num))]
  apply degOfRad_neg
  rw [atan2]
  apply Complex.arg_neg_iff.mpr
  show ((0:ℝ) * 20 - 10000 * 6) / (10000 * Real.sqrt 436) < 0
  apply div_neg_of_neg_of_pos (by norm_num)
  positivity

/-- The candidate `(-6, 20)` makes the signed angle
`arcsin (6 / sqrt 436)` (about 16.7 degrees) with the vertical base
ray. -/
lemma angleB_eval :
    _angle_between (((0:ℝ),(0:ℝ)), ((0:ℝ),(10000:ℝ)))
      (((0:ℝ),(0:ℝ)), ((-6:ℝ),(20:ℝ))) =
    degOfRad (Real.arcsin (6 / Real.sqrt 436)) := by
  have hsp : (0:ℝ) < Real.sqrt 436 := Real.sqrt_pos.mpr (by norm_num)
  have hq : ((0:ℝ) * (-6) + 10000 * 20) / (10000 * Real.sqrt 436) =
      20 / Real.sqrt 436 := by
    rw [div_eq_div_iff (by positivity) hsp.ne']
    ring
  have hdet : ((0:ℝ) * 20 - 10000 * (-6)) / (10000 * Real.sqrt 436) =
      6 / Real.sqrt 436 := by
    rw [div_eq_div_iff (by positivity) hsp.ne']
    ring
  rw [angle_between_eval _ _ 0 10000 (-6) 20 10000 (Real.sqrt 436)
    (by norm_num [lineVec, psub]) (by norm_num [lineVec, psub])
    (by
      rw [show sqLen ((0:ℝ),(10000:ℝ)) = 10000 ^ 2 by norm_num [sqLen]]
      exact Real.sqrt_sq (by norm_num))
    (by rw [show sqLen ((-6:ℝ),(20:ℝ)) = 436 by norm_num [sqLen]])
    (by norm_num) hsp.ne'
    (by
      rw [hq]
      have h0 : (0:ℝ) ≤ 20 / Real.sqrt 436 := by positivity
      linarith)
    (by
      rw [hq, div_le_one hsp]
      exact (Real.le_sqrt (by norm_num) (by norm_num)).mpr (by norm_num))]
  rw [hdet, hq, atan2]
  have habs : Complex.abs (Complex.mk (20 / Real.sqrt 436)
      (6 / Real.sqrt 436)) = 1 := by
    rw [Complex.abs_apply, Complex.normSq_mk]
    have h436 : Real.sqrt 436 ^ 2 = 436 := Real.sq_sqrt (by norm_num)
    rw [show 20 / Real.sqrt 436 * (20 / Real.sqrt 436) +
        6 / Real.sqrt 436 * (6 / Real.sqrt 436) = 1 by
      field_simp
      nlinarith [h436]]
    exact Real.sqrt_one
  rw [@Complex.arg_of_re_nonneg (Complex.mk (20 / Real.sqrt 436)
      (6 / Real.sqrt 436)) (show (0:ℝ) ≤ 20 / Real.sqrt 436 by positivity),
    habs]
  show degOfRad (Real.arcsin (6 / Real.sqrt 436 / 1)) = _
  rw [div_one]

/-- Lower bound of the accepted candidate angle. -/
lemma angleB_nonneg : 0 ≤ degOfRad (Real.arcsin (6 / Real.sqrt 436)) :=
  degOfRad_nonneg (Real.arcsin_nonneg.mpr (by positivity))

/-- Upper bound of the accepted candidate angle: at most 30 degrees. -/
lemma angleB_le30 : degOfRad (Real.arcsin (6 / Real.sqrt 436)) ≤ 30 := by
  have hsp : (0:ℝ) < Real.sqrt 436 := Real.sqrt_pos.mpr (by norm_num)
  have h12 : (6:ℝ) / Real.sqrt 436 ≤ 1/2 := by
    rw [div_le_iff₀ hsp]
    have h2 : (12:ℝ) ≤ Real.sqrt 436 :=
      (Real.le_sqrt (by norm_num) (by norm_num)).mpr (by norm_num)
    linarith
  have harc : Real.arcsin (6 / Real.sqrt 436) ≤ Real.arcsin (1/2) :=
    Real.monotone_arcsin h12
  have hpi6 : Real.arcsin (1/2) = π/6 := by
    rw [show (1/2:ℝ) = Real.sin (π/6) from (Real.sin_pi_div_six).symm]
    exact Real.arcsin_sin (by nlinarith [Real.pi_pos]) (by nlinarith [Real.pi_pos])
  have hd : degOfRad (π/6) = 30 := by
    rw [degOfRad]
    field_simp
    ring
  calc degOfRad (Real.arcsin (6 / Real.sqrt 436))
      ≤ degOfRad (π/6) := degOfRad_le_degOfRad (by rw [← hpi6]; exact harc)
    _ = 30 := hd

/-- The direct scan over the two circle points rejects `(6, 20)` (negative
angle) and keeps `(-6, 20)`. -/
lemma scanB_eval :
    directScan GC2 (((0:ℝ),(0:ℝ)), ((0:ℝ),(10000:ℝ))) 0 80
        [((6:ℝ),(20:ℝ)), ((-6:ℝ),(20:ℝ))] =
      (some ((-6:ℝ),(20:ℝ)), degOfRad (Real.arcsin (6 / Real.sqrt 436))) := by
  have hpiv : GC2.pivot = ((0:ℝ),(0:ℝ)) := by rw [GC2_eval]
  have hbase : GC2.base_ray = (((0:ℝ),(0:ℝ)), ((0:ℝ),(10000:ℝ))) := by
    rw [GC2_eval]
  rw [directScan]
  simp only [List.foldl_cons, List.foldl_nil, hpiv, hbase]
  have h1 : ¬ ((0 ≤ _angle_between (((0:ℝ),(0:ℝ)), ((0:ℝ),(10000:ℝ)))
        (((0:ℝ),(0:ℝ)), ((6:ℝ),(20:ℝ))) ∧
      _angle_between (((0:ℝ),(0:ℝ)), ((0:ℝ),(10000:ℝ)))
        (((0:ℝ),(0:ℝ)), ((6:ℝ),(20:ℝ))) ≤ 80) ∧
      _angle_between (((0:ℝ),(0:ℝ)), ((0:ℝ),(10000:ℝ)))
        (((0:ℝ),(0:ℝ)), ((6:ℝ),(20:ℝ))) > -1e9) :=
    fun hcon => absurd hcon.1.1 (not_le.mpr angleA_neg)
  rw [if_neg h1, angleB_eval]
  have h2 : ((0 ≤ degOfRad (Real.arcsin (6 / Real.sqrt 436)) ∧
      degOfRad (Real.arcsin (6 / Real.sqrt 436)) ≤ 80) ∧
      degOfRad (Real.arcsin (6 / Real.sqrt 436)) >
        (((none : Option Pt), (-1e9:ℝ))).2) :=
    ⟨⟨angleB_nonneg, le_trans angleB_le30 (by norm_num)⟩,
     lt_of_lt_of_le (by norm_num) angleB_nonneg⟩
  rw [if_pos h2]

/-- One-step unfolding of the direct loop. -/
lemma directLoop_succ (G : Generator) (sp amin amax maxl minl : ℝ) (k : ℕ)
    (toe : Pt) (line : Seg) :
    directLoop G sp amin amax maxl minl (k + 1) toe line =
      (if (circleRingPts toe sp G.stope).length ≤ 1 then ([], [])
       else
         match (directScan G line amin amax
             (circleRingPts toe sp G.stope)).1 with
         | none => ([], [])
         | some best =>
           if elen best toe < 1e-6 ∨
               ¬ segIntersectsPoly (G.pivot, best) G.stope then ([], [])
           else
             if _angle_between G.base_ray (G.pivot, best) > amax ∨
                 _angle_between G.base_ray (G.pivot, best) < amin then ([], [])
             else
               if _is_valid_hole
                   (_find_endpoints G (G.pivot, best) maxl).1 (some best)
                   minl G.stope then
                 match (_find_endpoints G (G.pivot, best) maxl).1 with
                 | some c =>
                   ((c :: (directLoop G sp amin amax maxl minl k best
                       (G.pivot, best)).1),
                    (best :: (directLoop G sp amin amax maxl minl k best
                       (G.pivot, best)).2))
                 | none => ([], [])
               else ([], [])) := by
  simp only [directLoop]

/-- C2 counterexample: on the worked example, `generate_direct` emits a
SECOND hole from `(-3/10, 1)` to `(-6, 20)` whose length
`sqrt 393.49 ≈ 19.84` m exceeds the 19.5 m `max_length`: the toes found
by the circle-stope intersection are validated against `min_length` only
and are never clipped, refuting the claimed upper bound. -/
theorem C2_direct_unclipped_counterexample :
    (generate_direct GC2 PC2).collars[1]? = some ((-3/10:ℝ), (1:ℝ)) ∧
    (generate_direct GC2 PC2).toes[1]? = some ((-6:ℝ), (20:ℝ)) ∧
    PC2.max_length < elen ((-3/10:ℝ), (1:ℝ)) ((-6:ℝ), (20:ℝ)) := by
  have hpiv : GC2.pivot = ((0:ℝ),(0:ℝ)) := by rw [GC2_eval]
  have hbase : GC2.base_ray = (((0:ℝ),(0:ℝ)), ((0:ℝ),(10000:ℝ))) := by
    rw [GC2_eval]
  have hsto : GC2.stope = stopeC2 := by rw [GC2_eval]
  have h120 : elen ((0:ℝ),(1:ℝ)) ((0:ℝ),(20:ℝ)) = 19 :=
    elen_eval (by norm_num) (by norm_num [sqLen, psub])
  have helB : elen ((-3/10:ℝ),(1:ℝ)) ((-6:ℝ),(20:ℝ)) =
      Real.sqrt (39349/100) := by
    rw [elen, show sqLen (psub ((-6:ℝ),(20:ℝ)) ((-3/10:ℝ),(1:ℝ))) = 39349/100
      by norm_num [sqLen, psub]]
  have hring : ringMem stopeC2 ((-6:ℝ),(20:ℝ)) := by
    refine ⟨(((50:ℝ),(20:ℝ)), ((-50:ℝ),(20:ℝ))), ?_, ?_⟩
    · rw [stopeC2_edges]
      simp
    · exact ⟨14/25, by norm_num, by norm_num,
        by norm_num [padd, psmul, lineVec, psub, Prod.ext_iff]⟩
  have hring5 : ringMem stopeC2 ((0:ℝ),(5:ℝ)) := by
    refine ⟨(((-50:ℝ),(5:ℝ)), ((50:ℝ),(5:ℝ))), ?_, ?_⟩
    · rw [stopeC2_edges]
      simp
    · exact ⟨1/2, by norm_num, by norm_num,
        by norm_num [padd, psmul, lineVec, psub, Prod.ext_iff]⟩
  have hv1 : _is_valid_hole (some ((0:ℝ),(1:ℝ))) (some ((0:ℝ),(20:ℝ)))
      (1/10) stopeC2 := by
    refine ⟨by rw [h120]; norm_num, ?_⟩
    refine ⟨((0:ℝ),(5:ℝ)), ?_, Or.inl hring5⟩
    exact ⟨4/19, by norm_num, by norm_num,
      by norm_num [padd, psmul, lineVec, psub, Prod.ext_iff]⟩
  have hguard : ¬ (elen ((-6:ℝ),(20:ℝ)) ((0:ℝ),(20:ℝ)) < 1e-6 ∨
      ¬ segIntersectsPoly (((0:ℝ),(0:ℝ)), ((-6:ℝ),(20:ℝ))) stopeC2) := by
    have h6 : elen ((-6:ℝ),(20:ℝ)) ((0:ℝ),(20:ℝ)) = 6 :=
      elen_eval (by norm_num) (by norm_num [sqLen, psub])
    rintro (h | h)
    · rw [h6] at h
      norm_num at h
    · exact h ⟨((-6:ℝ),(20:ℝ)),
        ⟨1, by norm_num, by norm_num,
          by norm_num [padd, psmul, lineVec, psub, Prod.ext_iff]⟩,
        Or.inl hring⟩
  have hang : ¬ (degOfRad (Real.arcsin (6 / Real.sqrt 436)) > 80 ∨
      degOfRad (Real.arcsin (6 / Real.sqrt 436)) < 0) := by
    rintro (h | h)
    · have := angleB_le30
      linarith
    · have := angleB_nonneg
      linarith
  have hv2 : _is_valid_hole (some ((-3/10:ℝ),(1:ℝ))) (some ((-6:ℝ),(20:ℝ)))
      (1/10) stopeC2 := by
    refine ⟨?_, ?_⟩
    · rw [helB]
      exact not_lt.mpr (Real.le_sqrt_of_sq_le (by norm_num))
    · refine ⟨((-6:ℝ),(20:ℝ)), ?_, Or.inl hring⟩
      exact ⟨1, by norm_num, by norm_num,
        by norm_num [padd, psmul, lineVec, psub, Prod.ext_iff]⟩
  have hgen : generate_direct GC2 PC2 = FanDesign.mk
      (((0:ℝ),(1:ℝ)) :: ((-3/10:ℝ),(1:ℝ)) ::
        (directLoop GC2 6 0 80 (39/2) (1/10) 399 ((-6:ℝ),(20:ℝ))
          (((0:ℝ),(0:ℝ)), ((-6:ℝ),(20:ℝ)))).1)
      (((0:ℝ),(20:ℝ)) :: ((-6:ℝ),(20:ℝ)) ::
        (directLoop GC2 6 0 80 (39/2) (1/10) 399 ((-6:ℝ),(20:ℝ))
          (((0:ℝ),(0:ℝ)), ((-6:ℝ),(20:ℝ)))).2)
      PC2 := by
    simp only [generate_direct, PC2, Option.getD_some, hpiv, hbase, hsto]
    rw [rotateLine_zero, feA_eval]
    simp only []
    rw [if_pos hv1]
    rw [show (400:ℕ) = 399 + 1 from rfl, directLoop_succ]
    simp only [hpiv, hbase, hsto]
    rw [circleB_eval]
    rw [if_neg (by norm_num)]
    rw [scanB_eval]
    simp only []
    rw [if_neg hguard]
    rw [angleB_eval, if_neg hang]
    rw [feB_eval]
    simp only []
    rw [if_pos hv2]
  refine ⟨?_, ?_, ?_⟩
  · rw [hgen]
    simp
  · rw [hgen]
    simp
  · rw [show PC2.max_length = 39/2 from rfl, helB]
    exact Real.lt_sqrt_of_sq_lt (by norm_num)
